import Mathlib

/-!
# Verification of the screen-translation pipeline

A shallow embedding of the screen-translation utility (screen selector,
OCR engines, translation engine, pipeline orchestrator) together with
proofs of the specification claims C1-C10.

Python strings are modelled as Lean `String`s (sequences of Unicode code
points, matching Python's `str`); Python string methods are embedded as
explicit functions over `String.data`.  Network calls and OCR-service
calls are modelled by passing their results in as parameters, and the
list of issued requests is returned explicitly where a claim is about
which requests happen.
-/

set_option linter.unusedVariables false
set_option linter.unreachableTactic false
set_option linter.unusedTactic false

namespace ScreenTranslation

/-! ## Python string primitives -/

/-- Characters for which Python's `str.isspace` holds; `str.strip()`
removes exactly these from both ends. -/
def isPyWs (c : Char) : Bool :=
  let n := c.toNat
  n == 0x20 || n == 0x9 || n == 0xa || n == 0xd || n == 0xb || n == 0xc ||
  (0x1c ≤ n && n ≤ 0x1f) || n == 0x85 || n == 0xa0 || n == 0x1680 ||
  (0x2000 ≤ n && n ≤ 0x200a) || n == 0x2028 || n == 0x2029 || n == 0x202f ||
  n == 0x205f || n == 0x3000

/-- `str.lstrip()` on the character list. -/
def pyLStripL (l : List Char) : List Char := l.dropWhile isPyWs

/-- `str.rstrip()` on the character list. -/
def pyRStripL (l : List Char) : List Char := (l.reverse.dropWhile isPyWs).reverse

/-- `str.strip()` on the character list. -/
def pyStripL (l : List Char) : List Char := pyRStripL (pyLStripL l)

/-- Python `str.strip()`. -/
def pyStrip (s : String) : String := String.mk (pyStripL s.data)

/-- ASCII lower-casing of one character.  Python's `str.lower()` also
lower-cases non-ASCII letters; every string this development lower-cases
is compared against an ASCII needle, for which the two agree. -/
def asciiLower (c : Char) : Char :=
  if 'A' ≤ c && c ≤ 'Z' then Char.ofNat (c.toNat + 32) else c

/-- Python `str.lower()` (ASCII fragment, see `asciiLower`). -/
def pyLower (s : String) : String := String.mk (s.data.map asciiLower)

/-- Python `str.startswith(pre)`. -/
def pyStartsWith (s pre : String) : Bool := pre.data.isPrefixOf s.data

/-- Python `str.endswith(suf)`. -/
def pyEndsWith (s suf : String) : Bool := suf.data.isSuffixOf s.data

/-- Python slicing `s[n:]`. -/
def pyDrop (s : String) (n : Nat) : String := String.mk (s.data.drop n)

/-- Python slicing `s[:n]`. -/
def pyTake (s : String) (n : Nat) : String := String.mk (s.data.take n)

/-- Python slicing `s[1:-1]` (drop one character at each end). -/
def pySlice1m1 (s : String) : String := String.mk ((s.data.drop 1).dropLast)

/-- Python's substring test `needle in hay`, on character lists. -/
def containsSubL (hay needle : List Char) : Bool :=
  needle.isPrefixOf hay ||
    match hay with
    | [] => false
    | _ :: t => containsSubL t needle

/-- Python's substring test `needle in hay`. -/
def pyIn (needle hay : String) : Bool := containsSubL hay.data needle.data

/-- Substring containment as a proposition (used to state that an error
message mentions a model name, etc.). -/
def isSubstrOf (needle hay : String) : Prop := needle.data <:+: hay.data

/-! ## Pipeline orchestrator (`main.py`, `ProcessingThread.run` and
`MainWindow.on_processing_complete`) -/

/-- The tuple emitted by `ProcessingThread.run` via `finished.emit`,
plus an explicit flag recording whether the translation engine was
invoked during the run. -/
structure RunOutcome where
  original : String
  translated : String
  status : String
  translatorCalled : Bool

/-- `ProcessingThread.run`: extract text (the extractor's output is the
`extracted` argument), short-circuit on empty output or on output
starting with `"OCR Error"`, otherwise translate and emit `"Completed"`. -/
def processingRun (extracted : String) (translator : String → String) : RunOutcome :=
  if extracted == "" || pyStartsWith extracted "OCR Error" then
    ⟨extracted, "", "OCR failed", false⟩
  else
    ⟨extracted, translator extracted, "Completed", true⟩

/-- What `MainWindow.on_processing_complete` puts on screen: the two text
panes and the status label. -/
structure DisplayState where
  originalShown : String
  translatedShown : String
  label : String

/-- `MainWindow.on_processing_complete`: both text panes are set
unconditionally; the label depends on whether the status is
`"Completed"`. -/
def onProcessingComplete (original translated status : String) : DisplayState :=
  ⟨original, translated,
    if status == "Completed" then "✓ Translation completed!" else "✗ " ++ status⟩

/-! ## Region selector (`screen_capture.py`, `ScreenSelector`)

Coordinates are integers (Qt pixel coordinates).  `QRect` is stored in
Qt's historical inclusive-corner representation: `x2` and `y2` are the
coordinates of the bottom-right corner, so `width = x2 - x1 + 1`.
`QRect.normalized` is modelled with Qt 6 semantics: since Qt 6 (which
PyQt6 wraps), swapping the bad corners also moves them inwards by one
pixel each so that the returned rectangle keeps the absolute size
(in Qt 5 the plain swap grew the rectangle by two pixels). -/

structure QRectI where
  x1 : Int
  y1 : Int
  x2 : Int
  y2 : Int
deriving DecidableEq, Repr

/-- `QRect(topLeft, bottomRight)`: corners stored inclusively. -/
def QRectI.ofPoints (p1 p2 : Int × Int) : QRectI := ⟨p1.1, p1.2, p2.1, p2.2⟩

def QRectI.width (r : QRectI) : Int := r.x2 - r.x1 + 1

def QRectI.height (r : QRectI) : Int := r.y2 - r.y1 + 1

/-- Qt 6 `QRect::normalized()`. -/
def QRectI.normalized (r : QRectI) : QRectI :=
  let rx : QRectI :=
    if r.x2 < r.x1 then { r with x1 := r.x2 + 1, x2 := r.x1 - 1 } else r
  if rx.y2 < rx.y1 then { rx with y1 := rx.y2 + 1, y2 := rx.y1 - 1 } else rx

/-- A captured bitmap; the claims about the selector only concern its
dimensions, so the pixel payload is not modelled. -/
structure Bitmap where
  w : Int
  h : Int
deriving DecidableEq, Repr

/-- `QPixmap.copy(rect)`: the result always has the size of `rect`
(Qt fills areas outside the source), except that an empty `rect`
means "copy everything". -/
def pixmapCopy (src : Bitmap) (r : QRectI) : Bitmap :=
  if r.width ≤ 0 || r.height ≤ 0 then src else ⟨r.width, r.height⟩

/-- `ScreenSelector.mouseReleaseEvent` (the capturing branch): normalize
the drag rectangle; store a crop of the screenshot iff both normalized
dimensions exceed 10, else leave `selected_area = None` (it was reset by
`start_capture`). -/
def mouseRelease (screenshot : Bitmap) (beginP endP : Int × Int) : Option Bitmap :=
  let rect := (QRectI.ofPoints beginP endP).normalized
  if 10 < rect.width && 10 < rect.height then
    some (pixmapCopy screenshot rect)
  else
    none

/-- `ScreenSelector.get_selected_image`: `None` propagates; otherwise the
stored pixmap is converted (PNG round-trip), preserving its dimensions. -/
def getSelectedImage (selectedArea : Option Bitmap) : Option Bitmap := selectedArea

/-! ## Translation engine (`translation_engine.py`, `TranslationEngine`)

HTTP calls are modelled by passing their results in as parameters:
`post` is the outcome of `requests.post(url + "/api/generate", ...)`
(either an exception or a response carrying its status code, the parsed
`response` JSON field and the raw body text), and `tags` is the outcome
of `requests.get(url + "/api/tags")` (an exception for the bare
`except`, or a status code with the parsed model-name list).  Each
function also returns the list of backend calls it issued, so that
"no network call is made" is a statement about the embedding. -/

/-- A response of the `/api/generate` endpoint. -/
structure GenResp where
  status : Nat
  /-- the parsed `response` field of the JSON body (read on HTTP 200) -/
  response : String
  /-- `response.text`, the raw body (read in the generic error branch) -/
  text : String

/-- The `requests` exceptions distinguished by `_translate_ollama`. -/
inductive OllamaExn
  | connError
  | timeout
  | other (msg : String)

/-- One outbound backend call. -/
inductive BackendCall
  | google
  | ollamaGenerate
  | ollamaTags
deriving DecidableEq, Repr

/-- Python `", ".join(models)`. -/
def joinComma : List String → String
  | [] => ""
  | [x] => x
  | x :: y :: t => x ++ ", " ++ joinComma (y :: t)

/-- Label removal in `_translate_ollama`: if the stripped response
starts (case-insensitively) with `"Translation:"`, drop those 12
characters and strip again. -/
def stripLabel (t : String) : String :=
  if pyStartsWith (pyLower t) "translation:" then pyStrip (pyDrop t 12) else t

/-- Quote removal in `_translate_ollama`: if the text begins and ends
with a double quote, or begins and ends with a single quote, drop the
first and last character. -/
def stripQuotes (t : String) : String :=
  if (pyStartsWith t "\"" && pyEndsWith t "\"") ||
      (pyStartsWith t "\x27" && pyEndsWith t "\x27") then
    pySlice1m1 t
  else t

/-- The HTTP-200 cleanup in `_translate_ollama`: strip the response,
drop a leading `"Translation:"` label, then remove one layer of
surrounding quotes. -/
def cleanOllamaResponse (raw : String) : String :=
  stripQuotes (stripLabel (pyStrip raw))

/-- The HTTP-404 error string used when the model list is unavailable. -/
def ollama404NoList (model : String) : String :=
  "Ollama Error: Model \x27" ++ model ++
    ("\x27 not found (HTTP 404).\n\nPlease check the model name in Settings or run: ollama pull " ++
      model)

/-- The HTTP-404 error string listing the installed models. -/
def ollama404WithList (model : String) (models : List String) : String :=
  "Ollama Error: Model \x27" ++ model ++
    ("\x27 not found.\n\nAvailable models: " ++ joinComma models ++
      "\n\nPlease update the model name in Settings.")

/-- `TranslationEngine._translate_ollama` after the POST to
`/api/generate` resolved to `post`.  On 404 the model-list request is
issued; any exception there falls through (`except: pass`) to the
list-free 404 message, as does a non-200 list response. -/
def translateOllama (post : Except OllamaExn GenResp)
    (tags : Except Unit (Nat × List String)) (model : String) :
    String × List BackendCall :=
  match post with
  | .error .connError =>
      ("Error: Cannot connect to Ollama. Is it running?", [.ollamaGenerate])
  | .error .timeout =>
      ("Error: Ollama request timed out. The model might be loading or the prompt is too long.",
        [.ollamaGenerate])
  | .error (.other m) => ("Ollama Error: " ++ m, [.ollamaGenerate])
  | .ok r =>
    if r.status == 200 then (cleanOllamaResponse r.response, [.ollamaGenerate])
    else if r.status == 404 then
      match tags with
      | .ok (st, models) =>
        if st == 200 then (ollama404WithList model models, [.ollamaGenerate, .ollamaTags])
        else (ollama404NoList model, [.ollamaGenerate, .ollamaTags])
      | .error _ => (ollama404NoList model, [.ollamaGenerate, .ollamaTags])
    else
      ("Ollama Error: HTTP " ++ toString r.status ++ " - " ++ pyTake r.text 200,
        [.ollamaGenerate])

/-- `TranslationEngine._translate_google`: the googletrans call either
returns translated text or raises; both are caught locally. -/
def translateGoogle (googleRes : Except String String) : String × List BackendCall :=
  match googleRes with
  | .ok t => (t, [.google])
  | .error e => ("Google Translate Error: " ++ e, [.google])

/-- `TranslationEngine.translate`: return `""` for empty or
whitespace-only input before any dispatch, then dispatch on the backend
name.  The outer `except` of the Python code is unreachable here because
both backend helpers catch all their exceptions themselves. -/
def translate (backend : String) (googleRes : Except String String)
    (post : Except OllamaExn GenResp) (tags : Except Unit (Nat × List String))
    (model : String) (text : String) : String × List BackendCall :=
  if text == "" || pyStrip text == "" then ("", [])
  else if backend == "google" then translateGoogle googleRes
  else if backend == "ollama" then translateOllama post tags model
  else ("Unknown backend: " ++ backend, [])

/-! ## Windows OCR backend (`ocr_engine.py`, `WindowsOCR`)

`WindowsOCR.extract_text.do_ocr` issues recognition requests to the
Windows OCR service.  The service is modelled by an oracle
`rec : String → Except String String` mapping a BCP-47 language tag to
either the recognized text of the `winocr` result object (`.ok`) or the
message of a raised exception (`.error`).  `do_ocr` is modelled
together with the ordered list of language tags it requests. -/

/-- `WindowsOCR.LANG_MAP`. -/
def LANG_MAP : List (String × String) :=
  [("en", "en-US"), ("ja", "ja-JP"), ("ko", "ko-KR"), ("zh", "zh-CN"), ("zh-tw", "zh-TW"),
   ("es", "es-ES"), ("fr", "fr-FR"), ("de", "de-DE"), ("it", "it-IT"), ("pt", "pt-BR"),
   ("ru", "ru-RU"), ("ar", "ar-SA"), ("hi", "hi-IN"), ("th", "th-TH"), ("vi", "vi-VN"),
   ("nl", "nl-NL"), ("pl", "pl-PL"), ("tr", "tr-TR")]

/-- `self.LANG_MAP.get(lang, 'en-US')`. -/
def langMapGet (l : String) : String := ((LANG_MAP.lookup l).getD "en-US")

/-- The candidate languages of strategy 1, in request order. -/
def commonLangs : List String := ["ja-JP", "en-US", "ko-KR", "zh-CN", "zh-TW"]

/-- The character class
`[\w぀-ゟ゠-ヿ一-鿿가-힯]` used both for
the scoring bonus and for the line filter.  Python's Unicode `\w` is
modelled by its ASCII fragment (letters, digits, underscore); all
evaluated strings stay inside that fragment plus the explicit CJK
ranges. -/
def isMeaningful (c : Char) : Bool :=
  let n := c.toNat
  (0x30 ≤ n && n ≤ 0x39) || (0x41 ≤ n && n ≤ 0x5a) || (0x61 ≤ n && n ≤ 0x7a) || n == 0x5f ||
  (0x3040 ≤ n && n ≤ 0x309f) || (0x30a0 ≤ n && n ≤ 0x30ff) ||
  (0x4e00 ≤ n && n ≤ 0x9fff) || (0xac00 ≤ n && n ≤ 0xd7af)

/-- `len(re.findall(r'[\w...CJK...]', l))`. -/
def meaningfulCount (l : List Char) : Nat := (l.filter isMeaningful).length

/-- `do_ocr`'s confidence score of a response text:
`len(text.strip()) + 2 * len(re.findall(r'[\w...CJK...]', text))`. -/
def ocrScore (t : String) : Nat := (pyStripL t.data).length + 2 * meaningfulCount t.data

/-- The loop state of strategy 1 in `do_ocr`: `best_result` (its text),
`best_score` and `last_error`. -/
structure OcrState where
  best : Option String
  bestScore : Nat
  lastErr : Option String

/-- One iteration of the strategy-1 loop: an exception only records
`last_error`; an empty or whitespace-only text is skipped; otherwise the
response is kept iff its score strictly beats the best so far. -/
def ocrStep (rec : String → Except String String) (st : OcrState) (tag : String) : OcrState :=
  match rec tag with
  | .error m => ⟨st.best, st.bestScore, some m⟩
  | .ok t =>
    if t == "" then st
    else if (pyStripL t.data).length == 0 then st
    else if st.bestScore < ocrScore t then ⟨some t, ocrScore t, st.lastErr⟩
    else st

/-- Strategy 1: fold the step over the five candidate languages. -/
def strategy1 (rec : String → Except String String) : OcrState :=
  commonLangs.foldl (ocrStep rec) ⟨none, 0, none⟩

/-- The language-pack guidance text returned when a recorded error
message mentions a missing language. -/
def langPackMsg : String :=
  "No text detected. For Japanese/Korean/Chinese:\n\n1. Install Windows language pack:\n   Settings → Time & Language → Language & Region\n   → Add language → Select Japanese/Korean/Chinese\n   → Download & install\n\n2. Or switch to Tesseract OCR in Settings"

/-- The tail of `do_ocr` after both strategies: turn a recorded error
into the language-pack guidance or re-raise it; with no recorded error
return the `"No text detected"` sentinel. -/
def ocrErrorHandling (e : Option String) : Except String String :=
  match e with
  | some m =>
    if pyIn "language" (pyLower m) || pyIn "not installed" (pyLower m) ||
        pyIn "not available" (pyLower m) then
      .ok langPackMsg
    else .error m
  | none => .ok "No text detected"

/-- The outcome of `do_ocr`: the returned result text or a re-raised
error, together with the ordered list of language tags that were sent to
the recognition service. -/
structure OcrRun where
  result : Except String String
  requests : List String

/-- `do_ocr` after strategy 1 did not produce a score above the
threshold: a single fallback request with the mapped tag, but only when
the requested language is neither `'auto'` nor `'en'`. -/
def doOcrFallback (rec : String → Except String String) (lang : String)
    (st : OcrState) : OcrRun :=
  if lang != "auto" && lang != "en" then
    match rec (langMapGet lang) with
    | .ok t => ⟨.ok t, commonLangs ++ [langMapGet lang]⟩
    | .error m => ⟨ocrErrorHandling (some m), commonLangs ++ [langMapGet lang]⟩
  else ⟨ocrErrorHandling st.lastErr, commonLangs⟩

/-- `WindowsOCR.extract_text.do_ocr`: keep the best strategy-1 response
if its score exceeds 5, otherwise fall through to the fallback and the
error handling. -/
def doOcr (rec : String → Except String String) (lang : String) : OcrRun :=
  match (strategy1 rec).best with
  | some t =>
    if 5 < (strategy1 rec).bestScore then ⟨.ok t, commonLangs⟩
    else doOcrFallback rec lang (strategy1 rec)
  | none => doOcrFallback rec lang (strategy1 rec)

/-- The effective score of one recognition outcome: `none` when the
response is an exception, empty, or whitespace-only (no update can
happen), otherwise the score. -/
def effScore : Except String String → Option Nat
  | .error _ => none
  | .ok t =>
    if t == "" then none
    else if (pyStripL t.data).length == 0 then none
    else some (ocrScore t)

/-- A concrete recognizer for the C2 witness: Japanese text for
`ja-JP` (score 15), `"hi"` (score 6) for every other tag. -/
def recW : String → Except String String :=
  fun tag => if tag == "ja-JP" then .ok "こんにちは" else .ok "hi"

/-- A concrete recognizer answering empty text for every tag. -/
def recE : String → Except String String := fun _ => .ok ""


/-! ## OCR text cleaning (`ocr_engine.py`, `WindowsOCR._clean_ocr_text`
and `OCREngine._clean_ocr_text`)

Each `re.sub` of the Python code is embedded explicitly: the noise
classes are character filters, and each run-collapsing pattern
(`X-run of length ≥ k` replaced by a fixed shorter run) is
`collapseRuns`.  The line filter of the Windows cleaner embeds the float
comparison `meaningful / total > 0.3` as `3 * total < 10 * meaningful`,
which is equivalent for every line the program can encounter (the two
sides can only differ when `meaningful / total` lies within one double
ulp of `0.3`, which requires `total > 10^15`). -/

/-- The box-drawing noise class `[│┃┆┇┊┋╎╏║]`. -/
def isNoiseBox (c : Char) : Bool := "│┃┆┇┊┋╎╏║".data.contains c

/-- The shape noise class `[◆◇○●□■△▲▽▼◎★☆]`. -/
def isNoiseShape (c : Char) : Bool := "◆◇○●□■△▲▽▼◎★☆".data.contains c

/-- The CJK bracket class `[「」『』【】〔〕〈〉《》]`. -/
def isNoiseBracket (c : Char) : Bool := "「」『』【】〔〕〈〉《》".data.contains c

/-- The control-character class `[\x00-\x08\x0b\x0c\x0e-\x1f]`. -/
def isNoiseCtrl (c : Char) : Bool :=
  let n := c.toNat
  n ≤ 0x8 || n == 0xb || n == 0xc || (0xe ≤ n && n ≤ 0x1f)

/-- The zero-width / soft-hyphen class (U+00AD, U+200B-U+200F). -/
def isNoiseZeroWidth (c : Char) : Bool :=
  let n := c.toNat
  n == 0xad || n == 0x200b || n == 0x200c || n == 0x200d || n == 0x200e || n == 0x200f

/-- Union of the five noise classes of `WindowsOCR._clean_ocr_text`. -/
def isNoiseW (c : Char) : Bool :=
  isNoiseBox c || isNoiseShape c || isNoiseBracket c || isNoiseCtrl c || isNoiseZeroWidth c

/-- Union of the three noise classes of `OCREngine._clean_ocr_text`. -/
def isNoiseT (c : Char) : Bool := isNoiseBox c || isNoiseCtrl c || isNoiseZeroWidth c

def isDotC (c : Char) : Bool := c == '.'

def isBangC (c : Char) : Bool := c == '!'

def isQmC (c : Char) : Bool := c == '?'

/-- The class `[ \t]`. -/
def isSpTab (c : Char) : Bool := c == ' ' || c == '\t'

def isNl (c : Char) : Bool := c == '\n'

/-- `re.sub` of a run pattern: every maximal run of `p`-characters of
length at least `k` is replaced by `rep`; shorter runs are kept. -/
def collapseRuns (p : Char → Bool) (k : Nat) (rep : List Char) : List Char → List Char
  | [] => []
  | x :: xs =>
    if p x then
      (if k ≤ (xs.takeWhile p).length + 1 then rep else x :: xs.takeWhile p) ++
        collapseRuns p k rep (xs.dropWhile p)
    else
      x :: collapseRuns p k rep xs
termination_by l => l.length
decreasing_by
  all_goals simp_wf
  all_goals first
    | exact Nat.lt_succ_of_le ((List.dropWhile_suffix p).length_le)
    | exact Nat.lt_succ_self _

/-- Python `text.split(c)` (on a one-character separator). -/
def splitOnChar (c : Char) : List Char → List (List Char)
  | [] => [[]]
  | x :: xs =>
    match splitOnChar c xs with
    | [] => [[]]
    | h :: t => if x == c then [] :: h :: t else (x :: h) :: t

/-- Python `c.join(pieces)` (on a one-character separator). -/
def joinWith (c : Char) : List (List Char) → List Char
  | [] => []
  | [x] => x
  | x :: y :: t => x ++ c :: joinWith c (y :: t)

/-- The per-line test of the Windows cleaner: drop strip-empty lines,
keep a line iff it has at least 2 meaningful characters or its
meaningful-character ratio exceeds 0.3. -/
def keepLine (l : List Char) : Bool :=
  let m := meaningfulCount l
  let t := (pyStripL l).length
  !(t == 0) && (2 ≤ m || 3 * t < 10 * m)

/-- The line-filtering pass of the Windows cleaner. -/
def filterLinesW (l : List Char) : List Char :=
  joinWith '\n' ((splitOnChar '\n' l).filter keepLine)

/-- `WindowsOCR._clean_ocr_text` on the character list: noise removal,
punctuation-run collapsing, line filtering, whitespace collapsing, and a
final strip. -/
def cleanLw (l : List Char) : List Char :=
  pyStripL (collapseRuns isNl 3 ['\n', '\n']
    (collapseRuns isSpTab 3 [' ', ' ']
      (filterLinesW
        (collapseRuns isQmC 3 ['?', '?']
          (collapseRuns isBangC 3 ['!', '!']
            (collapseRuns isDotC 4 ['.', '.', '.']
              (l.filter (fun c => !isNoiseW c))))))))

/-- `OCREngine._clean_ocr_text` on the character list: same pipeline
without the shape/bracket noise classes and without the line filter. -/
def cleanLt (l : List Char) : List Char :=
  pyStripL (collapseRuns isNl 3 ['\n', '\n']
    (collapseRuns isSpTab 3 [' ', ' ']
      (collapseRuns isQmC 3 ['?', '?']
        (collapseRuns isBangC 3 ['!', '!']
          (collapseRuns isDotC 4 ['.', '.', '.']
            (l.filter (fun c => !isNoiseT c)))))))

/-- `WindowsOCR._clean_ocr_text`. -/
def cleanOcrTextWindows (s : String) : String :=
  if s == "" then "" else String.mk (cleanLw s.data)

/-- `OCREngine._clean_ocr_text` (the Tesseract path's cleaner). -/
def cleanOcrTextTesseract (s : String) : String :=
  if s == "" then "" else String.mk (cleanLt s.data)



/-- `l` contains no run of `k` consecutive characters satisfying `p`
(every all-`p` infix is shorter than `k`). -/
def NoRun (p : Char → Bool) (k : Nat) (l : List Char) : Prop :=
  ∀ t : List Char, t <:+: l → (∀ c ∈ t, p c = true) → t.length < k

/-- Right-strip the last piece of a piece list. -/
def stripLast : List (List Char) → List (List Char)
  | [] => []
  | [y] => [pyRStripL y]
  | y :: z :: t => y :: stripLast (z :: t)

/-- Left-strip the first piece and right-strip the last piece (the
effect of a global `strip` on the line list, when every piece contains a
non-whitespace character). -/
def edgeStrip : List (List Char) → List (List Char)
  | [] => []
  | [y] => [pyStripL y]
  | y :: z :: t => pyLStripL y :: stripLast (z :: t)

/-- The invariant characterizing strings already cleaned by the Windows
cleaner (nonempty case): no noise characters, no collapsible
punctuation or whitespace runs, every line passes the line filter, and
the string is stripped. -/
def InvW (m : List Char) : Prop :=
  (∀ c ∈ m, isNoiseW c = false) ∧ NoRun isDotC 4 m ∧ NoRun isBangC 3 m ∧ NoRun isQmC 3 m ∧
  (∀ x ∈ splitOnChar '\n' m, keepLine x = true) ∧ NoRun isSpTab 3 m ∧ pyStripL m = m

/-- The invariant characterizing strings already cleaned by the
Tesseract cleaner. -/
def InvT (m : List Char) : Prop :=
  (∀ c ∈ m, isNoiseT c = false) ∧ NoRun isDotC 4 m ∧ NoRun isBangC 3 m ∧ NoRun isQmC 3 m ∧
  NoRun isSpTab 3 m ∧ NoRun isNl 3 m ∧ pyStripL m = m


/-! ## Small string-level helper lemmas -/

theorem str_eq_iff_data (s t : String) : s = t ↔ s.data = t.data :=
  ⟨fun h => h ▸ rfl, String.ext⟩

theorem pyStrip_mk (l : List Char) : pyStrip (String.mk l) = String.mk (pyStripL l) := rfl

/-! ## Claim C1 (corrected)

The orchestrator only tests the extractor output against the prefix
`"OCR Error"` (the Tesseract-path sentinel).  The Windows backend's
sentinel produced when recognition raises is `"Windows OCR Error: ..."`
(`ocr_engine.py` line 312), which does not start with `"OCR Error"`, so
for that backend the pipeline does not short-circuit and the translator
is invoked on the sentinel string. -/

/-- C1 counterexample: an extractor output carrying the Windows OCR
error sentinel is not detected — the run completes and the translator is
called, contradicting the claim for "either backend". -/
theorem c1_counterexample :
    pyStartsWith "Windows OCR Error: boom" "Windows OCR Error" = true ∧
    (processingRun "Windows OCR Error: boom" (fun _ => "translated")).status = "Completed" ∧
    (processingRun "Windows OCR Error: boom" (fun _ => "translated")).translatorCalled = true := by
  refine ⟨by decide, by decide, by decide⟩

/-- C1 (amended): if the extractor's output begins with `"OCR Error"`
— the sentinel of the Tesseract backend, the only one the orchestrator
recognizes — the run reports `"OCR failed"`, emits no translation and
never invokes the translator. -/
theorem c1_amended (s : String) (tr : String → String)
    (h : pyStartsWith s "OCR Error" = true) :
    (processingRun s tr).status = "OCR failed" ∧
    (processingRun s tr).translated = "" ∧
    (processingRun s tr).translatorCalled = false := by
  simp [processingRun, h]

/-- Witness for C1 at a concrete Tesseract error string. -/
theorem c1_amended_witness :
    pyStartsWith "OCR Error: tesseract failed" "OCR Error" = true ∧
    (processingRun "OCR Error: tesseract failed" (fun _ => "t")).status = "OCR failed" ∧
    (processingRun "OCR Error: tesseract failed" (fun _ => "t")).translatorCalled = false := by
  have h : pyStartsWith "OCR Error: tesseract failed" "OCR Error" = true := by decide
  exact ⟨h, (c1_amended _ (fun _ => "t") h).1, (c1_amended _ (fun _ => "t") h).2.2⟩

/-! ## Claim C9 (confirmed): once the translation step is reached the
run always ends `"Completed"`, and the translator's output — even a
sentinel-prefixed error string — is displayed as the translation. -/

/-- C9: if the extractor output is neither empty nor `"OCR Error"`-
prefixed, the run invokes the translator, ends with status
`"Completed"` for every translator output, and
`on_processing_complete` shows that output as the translated content
with the success label. -/
theorem c9_translation_always_completes (s : String) (tr : String → String)
    (h : (s == "" || pyStartsWith s "OCR Error") = false) :
    (processingRun s tr).status = "Completed" ∧
    (processingRun s tr).translated = tr s ∧
    (processingRun s tr).translatorCalled = true ∧
    (onProcessingComplete (processingRun s tr).original (processingRun s tr).translated
        (processingRun s tr).status).translatedShown = tr s ∧
    (onProcessingComplete (processingRun s tr).original (processingRun s tr).translated
        (processingRun s tr).status).label = "✓ Translation completed!" := by
  simp [processingRun, h, onProcessingComplete]

/-- Witness for C9: a translator that returns a sentinel-prefixed error
string still yields a `"Completed"` run displaying that string. -/
theorem c9_witness :
    ("hello" == "" || pyStartsWith "hello" "OCR Error") = false ∧
    (processingRun "hello" (fun _ => "Translation Error: backend down")).status = "Completed" ∧
    (processingRun "hello" (fun _ => "Translation Error: backend down")).translated =
      "Translation Error: backend down" := by
  have h : ("hello" == "" || pyStartsWith "hello" "OCR Error") = false := by decide
  have := c9_translation_always_completes "hello" (fun _ => "Translation Error: backend down") h
  exact ⟨h, this.1, this.2.1⟩

/-! ## Claim C7 (confirmed): a drag whose normalized width or height is
at most 10 stores no result; a result is stored exactly when both
normalized dimensions exceed 10. -/

/-- C7: `get_selected_image` is `None` whenever either normalized
dimension of the drag rectangle is at most 10 pixels, and a bitmap is
stored if and only if both exceed 10. -/
theorem c7_small_selection_rejected (shot : Bitmap) (b e : Int × Int) :
    ((QRectI.ofPoints b e).normalized.width ≤ 10 ∨
        (QRectI.ofPoints b e).normalized.height ≤ 10 →
      getSelectedImage (mouseRelease shot b e) = none) ∧
    ((getSelectedImage (mouseRelease shot b e)).isSome ↔
      10 < (QRectI.ofPoints b e).normalized.width ∧
        10 < (QRectI.ofPoints b e).normalized.height) := by
  unfold mouseRelease getSelectedImage
  by_cases hw : 10 < (QRectI.ofPoints b e).normalized.width <;>
    by_cases hh : 10 < (QRectI.ofPoints b e).normalized.height <;>
      simp [hw, hh] <;> try omega

/-- Witness for C7 at a concrete 5×30 drag (width 5 ≤ 10): no result. -/
theorem c7_witness :
    ((QRectI.ofPoints (0, 0) (4, 29)).normalized.width ≤ 10 ∨
      (QRectI.ofPoints (0, 0) (4, 29)).normalized.height ≤ 10) ∧
    getSelectedImage (mouseRelease ⟨1920, 1080⟩ (0, 0) (4, 29)) = none := by
  have h : (QRectI.ofPoints (0, 0) (4, 29)).normalized.width ≤ 10 ∨
      (QRectI.ofPoints (0, 0) (4, 29)).normalized.height ≤ 10 := by decide
  exact ⟨h, (c7_small_selection_rejected ⟨1920, 1080⟩ (0, 0) (4, 29)).1 h⟩

/-! ## Claim C8 (corrected)

Qt 6's `QRect::normalized()` preserves the absolute size of the
inclusive-coordinate rectangle: an axis dragged in decreasing direction
normalizes to the inclusive interval `[min+1, max-1]`, not `[min, max]`.
Hence the four diagonal drag directions between the same pair of
opposite corners do **not** produce the identical rectangle.  The other
half of the claim — the cropped bitmap's dimensions equal the
normalized rectangle's — does hold. -/

/-- C8 counterexample: dragging `(0,0) → (20,20)` and `(20,20) → (0,0)`
are both valid selections (all dimensions > 10) yet normalize to
different rectangles. -/
theorem c8_counterexample :
    (QRectI.ofPoints (0, 0) (20, 20)).normalized = ⟨0, 0, 20, 20⟩ ∧
    (QRectI.ofPoints (20, 20) (0, 0)).normalized = ⟨1, 1, 19, 19⟩ ∧
    10 < (QRectI.ofPoints (0, 0) (20, 20)).normalized.width ∧
    10 < (QRectI.ofPoints (0, 0) (20, 20)).normalized.height ∧
    10 < (QRectI.ofPoints (20, 20) (0, 0)).normalized.width ∧
    10 < (QRectI.ofPoints (20, 20) (0, 0)).normalized.height ∧
    (QRectI.ofPoints (0, 0) (20, 20)).normalized ≠
      (QRectI.ofPoints (20, 20) (0, 0)).normalized := by
  refine ⟨by decide, by decide, by decide, by decide, by decide, by decide, by decide⟩

/-- C8 (amended): for every stored selection the cropped bitmap's
dimensions equal the normalized rectangle's dimensions; and for a
strictly diagonal pair of opposite corners the four drag directions
normalize to four explicitly computed rectangles, a decreasing axis
shrinking by one pixel at each end instead of reproducing `[min, max]`. -/
theorem c8_amended (xa ya xb yb : Int) (hx : xa < xb) (hy : ya < yb) :
    (QRectI.ofPoints (xa, ya) (xb, yb)).normalized = ⟨xa, ya, xb, yb⟩ ∧
    (QRectI.ofPoints (xb, yb) (xa, ya)).normalized = ⟨xa + 1, ya + 1, xb - 1, yb - 1⟩ ∧
    (QRectI.ofPoints (xa, yb) (xb, ya)).normalized = ⟨xa, ya + 1, xb, yb - 1⟩ ∧
    (QRectI.ofPoints (xb, ya) (xa, yb)).normalized = ⟨xa + 1, ya, xb - 1, yb⟩ ∧
    ∀ (shot : Bitmap) (b e : Int × Int) (bm : Bitmap),
      mouseRelease shot b e = some bm →
      bm.w = (QRectI.ofPoints b e).normalized.width ∧
      bm.h = (QRectI.ofPoints b e).normalized.height := by
  have hx1 : ¬ (xb < xa) := by omega
  have hy1 : ¬ (yb < ya) := by omega
  refine ⟨?_, ?_, ?_, ?_, ?_⟩
  · simp [QRectI.ofPoints, QRectI.normalized, hx1, hy1]
  · simp [QRectI.ofPoints, QRectI.normalized, hx, hy]
  · simp [QRectI.ofPoints, QRectI.normalized, hx1, hy]
  · simp [QRectI.ofPoints, QRectI.normalized, hx, hy1]
  · intro shot b e bm hsome
    unfold mouseRelease at hsome
    by_cases hw : 10 < (QRectI.ofPoints b e).normalized.width
    · by_cases hh : 10 < (QRectI.ofPoints b e).normalized.height
      · rw [if_pos (by simp [hw, hh])] at hsome
        cases hsome
        unfold pixmapCopy
        rw [if_neg (by simp only [Bool.or_eq_true, decide_eq_true_eq]; omega)]
        exact ⟨rfl, rfl⟩
      · rw [if_neg (by simp [hh])] at hsome
        cases hsome
    · rw [if_neg (by simp [hw])] at hsome
      cases hsome

/-- Witness for C8 at the corner pair `(0,0)`, `(20,20)`. -/
theorem c8_amended_witness :
    (QRectI.ofPoints (0, 0) (20, 20)).normalized = ⟨0, 0, 20, 20⟩ ∧
    (QRectI.ofPoints (20, 20) (0, 0)).normalized = ⟨1, 1, 19, 19⟩ ∧
    (QRectI.ofPoints (0, 20) (20, 0)).normalized = ⟨0, 1, 20, 19⟩ ∧
    (QRectI.ofPoints (20, 0) (0, 20)).normalized = ⟨1, 0, 19, 20⟩ := by
  have h := c8_amended 0 0 20 20 (by decide) (by decide)
  exact ⟨h.1, h.2.1, h.2.2.1, h.2.2.2.1⟩

/-! ## Claim C3 (confirmed): blank input short-circuits `translate`
before any backend dispatch, for every backend. -/

/-- C3: whitespace-only (or empty) input makes `translate` return the
empty string with no backend call issued, whatever the configured
backend and whatever the backends would have done. -/
theorem c3_blank_input_no_call (backend : String) (googleRes : Except String String)
    (post : Except OllamaExn GenResp) (tags : Except Unit (Nat × List String))
    (model text : String) (h : pyStrip text = "") :
    translate backend googleRes post tags model text = ("", []) := by
  unfold translate
  rw [h]
  simp

/-- Witness for C3 on the whitespace-only input `" \t\n "`, with the
`"google"` backend. -/
theorem c3_witness :
    pyStrip " \t\n " = "" ∧
    translate "google" (.ok "hi") (.ok ⟨200, "x", "x"⟩) (.error ()) "llama3" " \t\n " =
      ("", []) := by
  have h : pyStrip " \t\n " = "" := by decide
  exact ⟨h, c3_blank_input_no_call "google" (.ok "hi") (.ok ⟨200, "x", "x"⟩) (.error ())
    "llama3" " \t\n " h⟩

/-! ## Helper lemmas for strip / prefix reasoning on concrete shapes -/

theorem pyLStripL_append_of_clean (a x : List Char)
    (h : a.dropWhile isPyWs = a) (hne : a ≠ []) :
    pyLStripL (a ++ x) = a ++ x := by
  unfold pyLStripL
  rw [List.dropWhile_append, h]
  simp [List.isEmpty_iff, hne]

theorem pyRStripL_concat (x : List Char) (c : Char) (h : isPyWs c = false) :
    pyRStripL (x ++ [c]) = x ++ [c] := by
  simp [pyRStripL, List.dropWhile_cons, h]

/-! ## Claim C4 (confirmed): the 404 branch always names the requested
model, and names the installed models when the tags call succeeds with
HTTP 200. -/

theorem substr_in_noList (model : String) : isSubstrOf model (ollama404NoList model) := by
  unfold isSubstrOf ollama404NoList
  exact ⟨("Ollama Error: Model \x27" : String).data,
    (("\x27 not found (HTTP 404).\n\nPlease check the model name in Settings or run: ollama pull " ++
      model : String)).data, by simp [String.data_append]⟩

theorem substr_in_withList (model : String) (models : List String) :
    isSubstrOf model (ollama404WithList model models) := by
  unfold isSubstrOf ollama404WithList
  exact ⟨("Ollama Error: Model \x27" : String).data,
    (("\x27 not found.\n\nAvailable models: " ++ joinComma models ++
      "\n\nPlease update the model name in Settings." : String)).data,
    by simp [String.data_append]⟩

theorem substr_join_in_withList (model : String) (models : List String) :
    isSubstrOf (joinComma models) (ollama404WithList model models) := by
  unfold isSubstrOf ollama404WithList
  exact ⟨(("Ollama Error: Model \x27" ++ model ++ "\x27 not found.\n\nAvailable models: " :
      String)).data,
    (("\n\nPlease update the model name in Settings." : String)).data,
    by simp [String.data_append]⟩

/-- C4: whenever `/api/generate` answers 404, the returned error string
contains the requested model name; and if the `/api/tags` request
succeeds with HTTP 200, the comma-separated list of available model
names appears in the error string as well. -/
theorem c4_404_error_mentions_model (r : GenResp) (tags : Except Unit (Nat × List String))
    (model : String) (h404 : r.status = 404) :
    isSubstrOf model (translateOllama (.ok r) tags model).1 ∧
    ∀ models, tags = .ok (200, models) →
      isSubstrOf (joinComma models) (translateOllama (.ok r) tags model).1 := by
  obtain ⟨st, resp, txt⟩ := r
  simp only at h404
  subst h404
  cases tags with
  | error u =>
    refine ⟨?_, ?_⟩
    · simpa [translateOllama] using substr_in_noList model
    · intro models hmod
      cases hmod
  | ok p =>
    obtain ⟨ts, models⟩ := p
    by_cases hts : ts = 200
    · subst hts
      refine ⟨?_, ?_⟩
      · simpa [translateOllama] using substr_in_withList model models
      · intro models' hmod
        have hm : models = models' := by
          injection hmod with h1
          injection h1 with h2 h3
        subst hm
        simpa [translateOllama] using substr_join_in_withList model models
    · refine ⟨?_, ?_⟩
      · simpa [translateOllama, hts] using substr_in_noList model
      · intro models' hmod
        injection hmod with h1
        injection h1 with h2 h3
        exact absurd h2 hts

/-- Witness for C4 at a concrete 404 with two installed models. -/
theorem c4_witness :
    (404 : Nat) = 404 ∧
    isSubstrOf "gemma"
      (translateOllama (.ok ⟨404, "", ""⟩) (.ok (200, ["llama3", "mistral"])) "gemma").1 ∧
    isSubstrOf (joinComma ["llama3", "mistral"])
      (translateOllama (.ok ⟨404, "", ""⟩) (.ok (200, ["llama3", "mistral"])) "gemma").1 := by
  have h := c4_404_error_mentions_model ⟨404, "", ""⟩ (.ok (200, ["llama3", "mistral"]))
    "gemma" rfl
  exact ⟨rfl, h.1, h.2 ["llama3", "mistral"] rfl⟩

/-! ## Claim C5 (confirmed): the HTTP-200 cleanup strips a leading
`"Translation:"` label and one layer of surrounding quotes. -/

theorem cleanOllama_strips (core : String) :
    cleanOllamaResponse ("Translation: \"" ++ core ++ "\"") = core := by
  have hq : isPyWs '"' = false := by decide
  have hdata : ("Translation: \"" ++ core ++ "\"" : String).data
      = ("Translation: \"" : String).data ++ (core.data ++ ['"']) := by
    simp [String.data_append]
  have hAclean : ("Translation: \"" : String).data.dropWhile isPyWs
      = ("Translation: \"" : String).data := by decide
  have hAne : ("Translation: \"" : String).data ≠ [] := by decide
  -- step 1: the raw response is already stripped
  have hstrip : pyStrip ("Translation: \"" ++ core ++ "\"")
      = "Translation: \"" ++ core ++ "\"" := by
    rw [str_eq_iff_data]
    show pyStripL (("Translation: \"" ++ core ++ "\"" : String).data)
      = ("Translation: \"" ++ core ++ "\"" : String).data
    rw [hdata]
    unfold pyStripL
    rw [pyLStripL_append_of_clean _ _ hAclean hAne]
    rw [show ("Translation: \"" : String).data ++ (core.data ++ ['"'])
        = (("Translation: \"" : String).data ++ core.data) ++ ['"'] by simp,
      pyRStripL_concat _ _ hq]
  -- step 2: the lower-cased response starts with "translation:"
  have hmap : ("Translation: \"" : String).data.map asciiLower
      = ("translation:" : String).data ++ [' ', '"'] := by decide
  have hcond : pyStartsWith (pyLower ("Translation: \"" ++ core ++ "\"")) "translation:"
      = true := by
    unfold pyStartsWith pyLower
    rw [List.isPrefixOf_iff_prefix]
    show ("translation:" : String).data <+:
      (("Translation: \"" ++ core ++ "\"" : String).data.map asciiLower)
    rw [hdata, List.map_append, hmap]
    rw [List.append_assoc]
    exact List.prefix_append _ _
  -- step 3: dropping the 12-character label and stripping gives "⟨core⟩"
  have hdrop : pyStrip (pyDrop ("Translation: \"" ++ core ++ "\"") 12)
      = String.mk ('"' :: (core.data ++ ['"'])) := by
    rw [str_eq_iff_data]
    show pyStripL ((("Translation: \"" ++ core ++ "\"" : String).data).drop 12)
      = '"' :: (core.data ++ ['"'])
    rw [hdata, List.drop_append_of_le_length (by decide)]
    rw [show ("Translation: \"" : String).data.drop 12 = [' ', '"'] by decide]
    unfold pyStripL pyLStripL
    rw [show ([' ', '"'] ++ (core.data ++ ['"'])) = ' ' :: ('"' :: (core.data ++ ['"'])) by simp]
    rw [List.dropWhile_cons_of_pos (by decide), List.dropWhile_cons_of_neg (by simp [hq])]
    rw [show ('"' :: (core.data ++ ['"'])) = ('"' :: core.data) ++ ['"'] by simp]
    rw [pyRStripL_concat _ _ hq]
  -- assemble
  have hsw : pyStartsWith (String.mk ('"' :: (core.data ++ ['"']))) "\"" = true := by
    simp [pyStartsWith, List.isPrefixOf]
  have hew : pyEndsWith (String.mk ('"' :: (core.data ++ ['"']))) "\"" = true := by
    unfold pyEndsWith
    show (['"'].isSuffixOf ('"' :: (core.data ++ ['"']))) = true
    unfold List.isSuffixOf
    rw [List.isPrefixOf_iff_prefix]
    simp
  unfold cleanOllamaResponse stripLabel
  rw [hstrip, hcond]
  simp only [if_true]
  rw [hdrop]
  unfold stripQuotes
  rw [hsw, hew]
  simp only [Bool.and_self, Bool.true_or, if_true]
  unfold pySlice1m1
  show String.mk ((('"' :: (core.data ++ ['"'])).drop 1).dropLast) = core
  simp

/-- C5: on an HTTP-200 generation response whose `response` field is
`Translation: "⟨core⟩"`, the translator returns exactly `⟨core⟩` (label
and one layer of quotes stripped); in particular
`Translation: "Bonjour le monde"` yields `Bonjour le monde`. -/
theorem c5_label_and_quotes_stripped (core : String) (tags : Except Unit (Nat × List String))
    (model : String) :
    (translateOllama (.ok ⟨200, "Translation: \"" ++ core ++ "\"", ""⟩) tags model).1 = core ∧
    (translateOllama (.ok ⟨200, "Translation: \"Bonjour le monde\"", ""⟩) tags model).1 =
      "Bonjour le monde" := by
  have hred : ∀ raw : String,
      (translateOllama (.ok ⟨200, raw, ""⟩) tags model).1 = cleanOllamaResponse raw :=
    fun raw => rfl
  constructor
  · rw [hred]
    exact cleanOllama_strips core
  · rw [hred]
    have heq : ("Translation: \"" ++ "Bonjour le monde" ++ "\"" : String)
        = "Translation: \"Bonjour le monde\"" := by decide
    rw [← heq]
    exact cleanOllama_strips "Bonjour le monde"

/-! ## Claim C10 (confirmed): `translate` is total — it returns a plain
string for every input and backend behaviour.  Totality is inherent in
the embedding (every exception a backend can raise is a value of the
`Except` parameters, and every branch of `translate` returns a string);
the theorem pins down the returned string in each non-success case:
an error-prefixed message for each caught exception and an
`"Unknown backend"` message for an unrecognized backend name. -/

theorem c10_translate_total (text : String) (h : ¬ pyStrip text = "") :
    (∀ (backend : String) (googleRes : Except String String) (post : Except OllamaExn GenResp)
        (tags : Except Unit (Nat × List String)) (model : String),
      backend = "google" ∨ backend = "ollama" ∨
        translate backend googleRes post tags model text = ("Unknown backend: " ++ backend, [])) ∧
    (∀ (e : String) (post : Except OllamaExn GenResp) (tags : Except Unit (Nat × List String))
        (model : String),
      (translate "google" (.error e) post tags model text).1 = "Google Translate Error: " ++ e) ∧
    (∀ (googleRes : Except String String) (tags : Except Unit (Nat × List String))
        (model : String),
      (translate "ollama" googleRes (.error .connError) tags model text).1 =
        "Error: Cannot connect to Ollama. Is it running?" ∧
      (translate "ollama" googleRes (.error .timeout) tags model text).1 =
        "Error: Ollama request timed out. The model might be loading or the prompt is too long." ∧
      ∀ m, (translate "ollama" googleRes (.error (.other m)) tags model text).1 =
        "Ollama Error: " ++ m) ∧
    (∀ (t : String) (post : Except OllamaExn GenResp) (tags : Except Unit (Nat × List String))
        (model : String),
      (translate "google" (.ok t) post tags model text).1 = t) := by
  have htext : text ≠ "" := by
    intro he
    exact h (by rw [he]; rfl)
  have hb1 : (text == "") = false := by simp [htext]
  have hb2 : (pyStrip text == "") = false := by simp [h]
  refine ⟨?_, ?_, ?_, ?_⟩
  · intro backend googleRes post tags model
    by_cases hg : backend = "google"
    · exact Or.inl hg
    · by_cases ho : backend = "ollama"
      · exact Or.inr (Or.inl ho)
      · refine Or.inr (Or.inr ?_)
        simp [translate, hb1, hb2, hg, ho]
  · intro e post tags model
    simp [translate, hb1, hb2, translateGoogle]
  · intro googleRes tags model
    refine ⟨?_, ?_, fun m => ?_⟩ <;> simp [translate, hb1, hb2, translateOllama]
  · intro t post tags model
    simp [translate, hb1, hb2, translateGoogle]

/-- Witness for C10 on the input `"hi"`, an unknown backend name and a
connection failure. -/
theorem c10_witness :
    ¬ pyStrip "hi" = "" ∧
    translate "smurf" (.ok "x") (.error .timeout) (.error ()) "llama3" "hi" =
      ("Unknown backend: smurf", []) ∧
    (translate "ollama" (.ok "x") (.error .connError) (.error ()) "llama3" "hi").1 =
      "Error: Cannot connect to Ollama. Is it running?" := by
  have h : ¬ pyStrip "hi" = "" := by decide
  have main := c10_translate_total "hi" h
  refine ⟨h, ?_, (main.2.2.1 (.ok "x") (.error ()) "llama3").1⟩
  have htri := main.1 "smurf" (.ok "x") (.error .timeout) (.error ()) "llama3"
  rcases htri with h1 | h1 | h1
  · exact absurd h1 (by decide)
  · exact absurd h1 (by decide)
  · rw [h1]
    have : ("Unknown backend: " ++ "smurf" : String) = "Unknown backend: smurf" := by decide
    rw [this]

/-! ### Step and fold lemmas for the strategy-1 loop -/

theorem ocrStep_of_err (rec : String → Except String String) (st : OcrState) (tag : String)
    (m : String) (h : rec tag = .error m) :
    ocrStep rec st tag = ⟨st.best, st.bestScore, some m⟩ := by
  unfold ocrStep
  rw [h]

theorem effScore_ok_some_inv (t : String) (v : Nat) (h : effScore (.ok t) = some v) :
    ¬ (t == "") = true ∧ ¬ ((pyStripL t.data).length == 0) = true ∧ ocrScore t = v := by
  unfold effScore at h
  dsimp only at h
  by_cases h1 : (t == "") = true
  · rw [if_pos h1] at h; cases h
  · by_cases h2 : ((pyStripL t.data).length == 0) = true
    · rw [if_neg h1, if_pos h2] at h; cases h
    · rw [if_neg h1, if_neg h2] at h
      exact ⟨h1, h2, by injection h⟩

theorem effScore_ok_none_inv (t : String) (h : effScore (.ok t) = none) :
    (t == "") = true ∨ ((pyStripL t.data).length == 0) = true := by
  unfold effScore at h
  dsimp only at h
  by_cases h1 : (t == "") = true
  · exact Or.inl h1
  · by_cases h2 : ((pyStripL t.data).length == 0) = true
    · exact Or.inr h2
    · rw [if_neg h1, if_neg h2] at h; cases h

theorem ocrStep_of_eff_none (rec : String → Except String String) (st : OcrState) (tag : String)
    (t : String) (hok : rec tag = .ok t) (h : effScore (rec tag) = none) :
    ocrStep rec st tag = st := by
  rw [hok] at h
  unfold ocrStep
  rw [hok]
  dsimp only
  rcases effScore_ok_none_inv t h with h1 | h2
  · rw [if_pos h1]
  · by_cases h1 : (t == "") = true
    · rw [if_pos h1]
    · rw [if_neg h1, if_pos h2]

theorem ocrStep_of_eff_some_lt (rec : String → Except String String) (st : OcrState)
    (tag : String) (t : String) (v : Nat) (hok : rec tag = .ok t)
    (h : effScore (rec tag) = some v) (hlt : st.bestScore < v) :
    ocrStep rec st tag = ⟨some t, v, st.lastErr⟩ := by
  rw [hok] at h
  obtain ⟨h1, h2, hv⟩ := effScore_ok_some_inv t v h
  unfold ocrStep
  rw [hok]
  dsimp only
  rw [if_neg h1, if_neg h2, hv, if_pos hlt]

theorem ocrStep_of_eff_some_le (rec : String → Except String String) (st : OcrState)
    (tag : String) (t : String) (v : Nat) (hok : rec tag = .ok t)
    (h : effScore (rec tag) = some v) (hge : ¬ st.bestScore < v) :
    ocrStep rec st tag = st := by
  rw [hok] at h
  obtain ⟨h1, h2, hv⟩ := effScore_ok_some_inv t v h
  unfold ocrStep
  rw [hok]
  dsimp only
  rw [if_neg h1, if_neg h2, hv, if_neg hge]

theorem ocrStep_lastErr_of_ok (rec : String → Except String String) (st : OcrState)
    (tag : String) (t : String) (hok : rec tag = .ok t) :
    (ocrStep rec st tag).lastErr = st.lastErr := by
  unfold ocrStep
  rw [hok]
  dsimp only
  split_ifs <;> rfl

/-- If no response in `tags` can beat the current best score, the fold
leaves `best` and `best_score` unchanged. -/
theorem fold_no_improve (rec : String → Except String String) (tags : List String) :
    ∀ st : OcrState,
      (∀ u ∈ tags, ∀ v, effScore (rec u) = some v → v ≤ st.bestScore) →
      (tags.foldl (ocrStep rec) st).best = st.best ∧
        (tags.foldl (ocrStep rec) st).bestScore = st.bestScore := by
  induction tags with
  | nil => exact fun st _ => ⟨rfl, rfl⟩
  | cons u us ih =>
    intro st h
    have hstep : (ocrStep rec st u).best = st.best ∧
        (ocrStep rec st u).bestScore = st.bestScore := by
      cases hru : rec u with
      | error m => rw [ocrStep_of_err rec st u m hru]; exact ⟨rfl, rfl⟩
      | ok t =>
        cases heff : effScore (rec u) with
        | none => rw [ocrStep_of_eff_none rec st u t hru heff]; exact ⟨rfl, rfl⟩
        | some v =>
          have hv := h u (List.mem_cons_self u us) v heff
          rw [ocrStep_of_eff_some_le rec st u t v hru heff (by omega)]
          exact ⟨rfl, rfl⟩
    have ih' := ih (ocrStep rec st u) (by
      intro u' hu' v hv
      rw [hstep.2]
      exact h u' (List.mem_cons_of_mem _ hu') v hv)
    rw [List.foldl_cons]
    exact ⟨ih'.1.trans hstep.1, ih'.2.trans hstep.2⟩

/-- The fold's best score never exceeds a bound dominating the initial
score and every response score. -/
theorem fold_bound (rec : String → Except String String) (tags : List String) :
    ∀ (st : OcrState) (B : Nat), st.bestScore ≤ B →
      (∀ u ∈ tags, ∀ v, effScore (rec u) = some v → v ≤ B) →
      (tags.foldl (ocrStep rec) st).bestScore ≤ B := by
  induction tags with
  | nil => exact fun st B h _ => h
  | cons u us ih =>
    intro st B hB h
    rw [List.foldl_cons]
    have hstep : (ocrStep rec st u).bestScore ≤ B := by
      cases hru : rec u with
      | error m => rw [ocrStep_of_err rec st u m hru]; exact hB
      | ok t =>
        cases heff : effScore (rec u) with
        | none => rw [ocrStep_of_eff_none rec st u t hru heff]; exact hB
        | some v =>
          have hv := h u (List.mem_cons_self u us) v heff
          by_cases hcmp : st.bestScore < v
          · rw [ocrStep_of_eff_some_lt rec st u t v hru heff hcmp]; exact hv
          · rw [ocrStep_of_eff_some_le rec st u t v hru heff hcmp]; exact hB
    exact ih (ocrStep rec st u) B hstep (fun u' hu' v hv => h u' (List.mem_cons_of_mem _ hu') v hv)

/-- If no request raises, `last_error` is never written. -/
theorem fold_lastErr (rec : String → Except String String) (tags : List String) :
    ∀ st : OcrState, (∀ u ∈ tags, ∃ t, rec u = .ok t) →
      (tags.foldl (ocrStep rec) st).lastErr = st.lastErr := by
  induction tags with
  | nil => exact fun st _ => rfl
  | cons u us ih =>
    intro st h
    rw [List.foldl_cons]
    obtain ⟨t, ht⟩ := h u (List.mem_cons_self u us)
    have := ocrStep_lastErr_of_ok rec st u t ht
    exact (ih (ocrStep rec st u) (fun u' hu' => h u' (List.mem_cons_of_mem _ hu'))).trans this

/-- If some tag's response strictly beats the initial score and every
other response score, the fold ends on exactly that response. -/
theorem fold_first_max (rec : String → Except String String) (tags : List String) :
    ∀ (st : OcrState) (tag t : String) (S : Nat),
      tag ∈ tags → rec tag = .ok t → effScore (rec tag) = some S → st.bestScore < S →
      (∀ u ∈ tags, u ≠ tag → ∀ v, effScore (rec u) = some v → v < S) →
      (tags.foldl (ocrStep rec) st).best = some t ∧
        (tags.foldl (ocrStep rec) st).bestScore = S := by
  induction tags with
  | nil => intro st tag t S hmem; cases hmem
  | cons u us ih =>
    intro st tag t S hmem hrec heff hlt hothers
    rw [List.foldl_cons]
    by_cases hu : u = tag
    · subst hu
      rw [ocrStep_of_eff_some_lt rec st u t S hrec heff hlt]
      have hno := fold_no_improve rec us ⟨some t, S, st.lastErr⟩ (by
        intro u' hu' v hv
        show v ≤ S
        by_cases hu'u : u' = u
        · subst hu'u
          rw [heff] at hv
          injection hv with hv'
          omega
        · exact le_of_lt (hothers u' (List.mem_cons_of_mem _ hu') hu'u v hv))
      exact ⟨hno.1, hno.2⟩
    · have htag' : tag ∈ us := by
        rcases List.mem_cons.mp hmem with h1 | h1
        · exact absurd h1.symm hu
        · exact h1
      have hothers' : ∀ u' ∈ us, u' ≠ tag → ∀ v, effScore (rec u') = some v → v < S :=
        fun u' hu' => hothers u' (List.mem_cons_of_mem _ hu')
      cases hru : rec u with
      | error m =>
        rw [ocrStep_of_err rec st u m hru]
        exact ih ⟨st.best, st.bestScore, some m⟩ tag t S htag' hrec heff hlt hothers'
      | ok t' =>
        cases heff' : effScore (rec u) with
        | none =>
          rw [ocrStep_of_eff_none rec st u t' hru heff']
          exact ih st tag t S htag' hrec heff hlt hothers'
        | some v =>
          have hv : v < S := hothers u (List.mem_cons_self u us) hu v heff'
          by_cases hcmp : st.bestScore < v
          · rw [ocrStep_of_eff_some_lt rec st u t' v hru heff' hcmp]
            exact ih ⟨some t', v, st.lastErr⟩ tag t S htag' hrec heff hv hothers'
          · rw [ocrStep_of_eff_some_le rec st u t' v hru heff' hcmp]
            exact ih st tag t S htag' hrec heff hlt hothers'

theorem doOcr_to_fallback (rec : String → Except String String) (lang : String)
    (hb : (strategy1 rec).bestScore ≤ 5) :
    doOcr rec lang = doOcrFallback rec lang (strategy1 rec) := by
  unfold doOcr
  cases hbest : (strategy1 rec).best with
  | none => rfl
  | some t' =>
    dsimp only
    rw [if_neg (by omega)]

/-! ## Claim C2 (corrected)

Strategy 1 and its scoring are as the claim states: each
candidate-language response is scored `len(text.strip()) + 2 *
len(findall([\w CJK], text))` and the best response is returned when its
score exceeds 5.  But the fallback recognition request with the
requested language tag is **only** issued when the requested language is
neither `'auto'` nor `'en'` (`ocr_engine.py` line 248), not "for every
requested language"; and the `"No text detected"` sentinel is returned
only when no recognition attempt raised an exception. -/

/-- C2 counterexample: requested language `'en'`, a service answering
empty text everywhere.  The claim demands a sixth fallback request with
the requested language tag; the code issues exactly the five
candidate-language requests and returns the sentinel. -/
theorem c2_counterexample :
    (doOcr (fun _ => .ok "") "en").requests = ["ja-JP", "en-US", "ko-KR", "zh-CN", "zh-TW"] ∧
    (doOcr (fun _ => .ok "") "en").requests.length = 5 ∧
    (doOcr (fun _ => .ok "") "en").result = .ok "No text detected" :=
  ⟨rfl, rfl, rfl⟩

/-- C2 (amended): (1) if some candidate response's effective score
exceeds 5 and strictly beats every other candidate's, `do_ocr` returns
that response after exactly the five candidate requests; (2) when no
candidate scores above 5 and the requested language is neither `'auto'`
nor `'en'`, one extra recognition request with the mapped language tag
is issued, whose successful response is returned as-is; (3) when no
candidate scores above 5, the language is `'auto'` or `'en'`, and no
request raised, the `"No text detected"` sentinel is returned. -/
theorem c2_amended :
    (∀ (rec : String → Except String String) (lang tag t : String) (S : Nat),
      tag ∈ commonLangs → rec tag = .ok t → effScore (rec tag) = some S → 5 < S →
      (∀ u ∈ commonLangs, u ≠ tag → ∀ v, effScore (rec u) = some v → v < S) →
      doOcr rec lang = ⟨.ok t, commonLangs⟩) ∧
    (∀ (rec : String → Except String String) (lang : String),
      lang ≠ "auto" → lang ≠ "en" →
      (∀ u ∈ commonLangs, ∀ v, effScore (rec u) = some v → v ≤ 5) →
      (doOcr rec lang).requests = commonLangs ++ [langMapGet lang] ∧
      ∀ t, rec (langMapGet lang) = .ok t → (doOcr rec lang).result = .ok t) ∧
    (∀ (rec : String → Except String String) (lang : String),
      (lang = "auto" ∨ lang = "en") →
      (∀ u ∈ commonLangs, ∃ t, rec u = .ok t) →
      (∀ u ∈ commonLangs, ∀ v, effScore (rec u) = some v → v ≤ 5) →
      doOcr rec lang = ⟨.ok "No text detected", commonLangs⟩) := by
  refine ⟨?_, ?_, ?_⟩
  · intro rec lang tag t S hmem hrec heff h5 hothers
    have hfold := fold_first_max rec commonLangs ⟨none, 0, none⟩ tag t S hmem hrec heff
      (by dsimp only; omega) hothers
    unfold doOcr
    unfold strategy1
    rw [hfold.1]
    dsimp only
    rw [hfold.2, if_pos h5]
  · intro rec lang h1 h2 hbound
    have hb : (strategy1 rec).bestScore ≤ 5 := by
      unfold strategy1
      exact fold_bound rec commonLangs ⟨none, 0, none⟩ 5 (by dsimp only; omega) hbound
    rw [doOcr_to_fallback rec lang hb]
    unfold doOcrFallback
    have hc : (lang != "auto" && lang != "en") = true := by
      simp [h1, h2]
    rw [if_pos hc]
    cases hr : rec (langMapGet lang) with
    | ok t =>
      dsimp only
      exact ⟨rfl, fun t' ht' => ht'⟩
    | error m =>
      dsimp only
      exact ⟨rfl, fun t' ht' => Except.noConfusion ht'⟩
  · intro rec lang hlang hok hbound
    have hb : (strategy1 rec).bestScore ≤ 5 := by
      unfold strategy1
      exact fold_bound rec commonLangs ⟨none, 0, none⟩ 5 (by dsimp only; omega) hbound
    have herr : (strategy1 rec).lastErr = none := by
      unfold strategy1
      exact fold_lastErr rec commonLangs ⟨none, 0, none⟩ hok
    rw [doOcr_to_fallback rec lang hb]
    unfold doOcrFallback
    have hc : (lang != "auto" && lang != "en") = false := by
      rcases hlang with h | h <;> subst h <;> rfl
    rw [hc]
    simp only [Bool.false_eq_true, if_false]
    rw [herr]
    rfl

/-- Witness for C2: the three amended branches at concrete inputs. -/
theorem c2_amended_witness :
    doOcr recW "auto" = ⟨.ok "こんにちは", commonLangs⟩ ∧
    (doOcr recE "ja").requests = commonLangs ++ ["ja-JP"] ∧
    (doOcr recE "ja").result = .ok "" ∧
    doOcr recE "en" = ⟨.ok "No text detected", commonLangs⟩ := by
  have hothers : ∀ u ∈ commonLangs, u ≠ "ja-JP" → ∀ v,
      effScore (recW u) = some v → v < 15 := by
    intro u hu hne v hv
    fin_cases hu
    · exact absurd rfl hne
    · rw [show effScore (recW "en-US") = some 6 from by decide] at hv
      injection hv with h
      omega
    · rw [show effScore (recW "ko-KR") = some 6 from by decide] at hv
      injection hv with h
      omega
    · rw [show effScore (recW "zh-CN") = some 6 from by decide] at hv
      injection hv with h
      omega
    · rw [show effScore (recW "zh-TW") = some 6 from by decide] at hv
      injection hv with h
      omega
  have hboundE : ∀ u ∈ commonLangs, ∀ v, effScore (recE u) = some v → v ≤ 5 := by
    intro u hu v hv
    rw [show effScore (recE u) = none from rfl] at hv
    cases hv
  have hA := c2_amended.1 recW "auto" "ja-JP" "こんにちは" 15 (by decide) rfl (by decide)
    (by decide) hothers
  have hB := c2_amended.2.1 recE "ja" (by decide) (by decide) hboundE
  have hC := c2_amended.2.2 recE "en" (Or.inr rfl) (fun u hu => ⟨"", rfl⟩) hboundE
  refine ⟨hA, ?_, ?_, hC⟩
  · rw [hB.1]
    rfl
  · exact hB.2 "" rfl

/-! ## C6 infrastructure: infix decompositions and `NoRun` -/

theorem prefix_split {t a b : List Char} (h : t <+: a ++ b) :
    t <+: a ∨ ∃ t2, t = a ++ t2 ∧ t2 <+: b := by
  induction a generalizing t with
  | nil => exact Or.inr ⟨t, by simp, by simpa using h⟩
  | cons x a' ih =>
    cases t with
    | nil => exact Or.inl List.nil_prefix
    | cons y t' =>
      rw [List.cons_append] at h
      obtain ⟨hy, ht'⟩ := List.cons_prefix_cons.mp h
      subst hy
      rcases ih ht' with h1 | ⟨t2, ht2, hpre⟩
      · exact Or.inl (List.cons_prefix_cons.mpr ⟨rfl, h1⟩)
      · exact Or.inr ⟨t2, by simp [ht2], hpre⟩

theorem infix_append_cases {t a b : List Char} (h : t <:+: a ++ b) :
    t <:+: a ∨ t <:+: b ∨
      ∃ t1 t2, t = t1 ++ t2 ∧ t1 ≠ [] ∧ t2 ≠ [] ∧ t1 <:+ a ∧ t2 <+: b := by
  induction a generalizing t with
  | nil => exact Or.inr (Or.inl (by simpa using h))
  | cons x a' ih =>
    rw [List.cons_append] at h
    rcases List.infix_cons_iff.mp h with hpre | hinf
    · cases t with
      | nil => exact Or.inl List.nil_infix
      | cons y t' =>
        obtain ⟨hy, ht'⟩ := List.cons_prefix_cons.mp hpre
        rcases prefix_split ht' with h1 | ⟨t2, ht2, hpre2⟩
        · exact Or.inl (List.cons_prefix_cons.mpr ⟨hy, h1⟩).isInfix
        · by_cases ht2nil : t2 = []
          · subst ht2nil
            refine Or.inl ?_
            have he : y :: t' = x :: a' := by simp [ht2, hy]
            rw [he]
          · refine Or.inr (Or.inr ⟨x :: a', t2, by simp [ht2, hy], by simp, ht2nil,
              List.suffix_refl _, hpre2⟩)
    · rcases ih hinf with h1 | h1 | ⟨t1, t2, ht, h1, h2, hsuf, hpre2⟩
      · exact Or.inl (h1.trans (List.infix_cons (List.infix_refl a')))
      · exact Or.inr (Or.inl h1)
      · exact Or.inr (Or.inr ⟨t1, t2, ht, h1, h2, hsuf.trans (List.suffix_cons x a'), hpre2⟩)

theorem noRun_nil (p : Char → Bool) (k : Nat) (hk : 0 < k) : NoRun p k [] := by
  intro t ht _
  rw [List.infix_nil.mp ht]
  simpa using hk

theorem noRun_of_seg {p : Char → Bool} {k : Nat} {l₁ l₂ : List Char}
    (h : l₁ <:+: l₂) (h2 : NoRun p k l₂) : NoRun p k l₁ :=
  fun t ht hp => h2 t (ht.trans h) hp

theorem noRun_mono {p : Char → Bool} {k k' : Nat} (hk : k ≤ k') {l : List Char}
    (h : NoRun p k l) : NoRun p k' l :=
  fun t ht hp => lt_of_lt_of_le (h t ht hp) hk

theorem noRun_of_pfree {p : Char → Bool} {k : Nat} (hk : 0 < k) {l : List Char}
    (h : ∀ c ∈ l, p c = false) : NoRun p k l := by
  intro t ht hp
  cases t with
  | nil => simpa using hk
  | cons c t' =>
    have h1 := h c (ht.subset (List.mem_cons_self c t'))
    have h2 := hp c (List.mem_cons_self c t')
    rw [h1] at h2
    cases h2

theorem noRun_append_sep {p : Char → Bool} {k : Nat} {a b : List Char} {c : Char}
    (hk : 0 < k) (ha : NoRun p k a) (hb : NoRun p k b) (hc : p c = false) :
    NoRun p k (a ++ c :: b) := by
  intro t ht hp
  rcases infix_append_cases ht with h1 | h1 | ⟨t1, t2, rfl, h1, h2, hsuf, hpre⟩
  · exact ha t h1 hp
  · rcases List.infix_cons_iff.mp h1 with h2 | h2
    · cases t with
      | nil => simpa using hk
      | cons y t' =>
        obtain ⟨hy, _⟩ := List.cons_prefix_cons.mp h2
        have := hp y (List.mem_cons_self y t')
        rw [hy] at this
        rw [this] at hc
        cases hc
    · exact hb t h2 hp
  · cases t2 with
    | nil => exact absurd rfl h2
    | cons y t2' =>
      obtain ⟨hy, _⟩ := List.cons_prefix_cons.mp hpre
      have hmem : y ∈ t1 ++ y :: t2' := by simp
      have := hp y hmem
      rw [hy] at this
      rw [this] at hc
      cases hc

/-! ### Equations and structural lemmas for `collapseRuns` -/

theorem collapse_nil (p : Char → Bool) (k : Nat) (rep : List Char) :
    collapseRuns p k rep [] = [] := by
  simp [collapseRuns]

theorem collapse_cons_neg (p : Char → Bool) (k : Nat) (rep : List Char) (x : Char)
    (xs : List Char) (h : p x = false) :
    collapseRuns p k rep (x :: xs) = x :: collapseRuns p k rep xs := by
  rw [collapseRuns]
  simp [h]

theorem collapse_cons_pos (p : Char → Bool) (k : Nat) (rep : List Char) (x : Char)
    (xs : List Char) (h : p x = true) :
    collapseRuns p k rep (x :: xs) =
      (if k ≤ (xs.takeWhile p).length + 1 then rep else x :: xs.takeWhile p) ++
        collapseRuns p k rep (xs.dropWhile p) := by
  rw [collapseRuns]
  simp [h]

theorem dropWhile_head_false {p : Char → Bool} : ∀ {l : List Char} {y : Char} {ys : List Char},
    l.dropWhile p = y :: ys → p y = false := by
  intro l
  induction l with
  | nil => intro y ys h; cases h
  | cons x xs ih =>
    intro y ys h
    rw [List.dropWhile_cons] at h
    by_cases hx : p x = true
    · rw [if_pos hx] at h
      exact ih h
    · rw [if_neg hx] at h
      injection h with h1 h2
      rw [← h1]
      simpa using hx

theorem dropWhile_append_all {p : Char → Bool} {A B : List Char} (h : ∀ c ∈ A, p c = true) :
    (A ++ B).dropWhile p = B.dropWhile p := by
  rw [List.dropWhile_append]
  simp [List.dropWhile_eq_nil_iff.mpr h]

theorem dropWhile_eq_self_of_head {p : Char → Bool} {x : Char} {xs : List Char}
    (h : p x = false) : (x :: xs).dropWhile p = x :: xs := by
  simp [List.dropWhile_cons, h]

theorem takeWhile_append_sep {p : Char → Bool} {b : List Char} {c : Char} (hc : p c = false) :
    ∀ a : List Char, (a ++ c :: b).takeWhile p = a.takeWhile p := by
  intro a
  induction a with
  | nil => simp [List.takeWhile_cons, hc]
  | cons x a' ih =>
    rw [List.cons_append, List.takeWhile_cons, List.takeWhile_cons]
    by_cases hx : p x = true
    · rw [if_pos hx, if_pos hx, ih]
    · rw [if_neg hx, if_neg hx]

theorem dropWhile_append_sep {p : Char → Bool} {b : List Char} {c : Char} (hc : p c = false) :
    ∀ a : List Char, (a ++ c :: b).dropWhile p = a.dropWhile p ++ c :: b := by
  intro a
  induction a with
  | nil => simp [List.dropWhile_cons, hc]
  | cons x a' ih =>
    rw [List.cons_append, List.dropWhile_cons, List.dropWhile_cons]
    by_cases hx : p x = true
    · rw [if_pos hx, if_pos hx, ih]
    · rw [if_neg hx, if_neg hx, List.cons_append]

theorem collapse_eq_self (p : Char → Bool) (k : Nat) (rep : List Char) :
    ∀ l : List Char, NoRun p k l → collapseRuns p k rep l = l := by
  intro l
  induction l using collapseRuns.induct p k rep with
  | case1 => intro _; exact collapse_nil p k rep
  | case2 x xs hx ih =>
    intro h
    rw [collapse_cons_pos _ _ _ _ _ hx]
    have hrun : (x :: xs.takeWhile p).length < k := by
      apply h (x :: xs.takeWhile p)
      · exact (List.cons_prefix_cons.mpr ⟨rfl, List.takeWhile_prefix p⟩).isInfix
      · intro c hc
        rcases List.mem_cons.mp hc with rfl | hc
        · exact hx
        · exact List.mem_takeWhile_imp hc
    rw [List.length_cons] at hrun
    rw [if_neg (by omega)]
    have hdw : NoRun p k (xs.dropWhile p) :=
      noRun_of_seg ((List.dropWhile_suffix p).isInfix.trans
        (List.infix_cons (List.infix_refl xs))) h
    rw [ih hdw, List.cons_append, List.takeWhile_append_dropWhile]
  | case3 x xs hx ih =>
    intro h
    rw [collapse_cons_neg _ _ _ _ _ (by simpa using hx)]
    rw [ih (noRun_of_seg (List.infix_cons (List.infix_refl xs)) h)]

theorem collapse_noRun (p : Char → Bool) (k : Nat) (rep : List Char) (hk : 0 < k)
    (hrep : rep.length < k) :
    ∀ l : List Char, NoRun p k (collapseRuns p k rep l) := by
  intro l
  induction l using collapseRuns.induct p k rep with
  | case1 => rw [collapse_nil]; exact noRun_nil p k hk
  | case2 x xs hx ih =>
    rw [collapse_cons_pos _ _ _ _ _ hx]
    have hBlen : (if k ≤ (xs.takeWhile p).length + 1 then rep
        else x :: xs.takeWhile p).length < k := by
      split_ifs with hcmp
      · exact hrep
      · rw [List.length_cons]
        omega
    cases hD : xs.dropWhile p with
    | nil =>
      rw [collapse_nil]
      intro t ht hp
      have := ht.length_le
      simp only [List.append_nil] at this
      omega
    | cons z rest =>
      have hz : p z = false := dropWhile_head_false hD
      rw [collapse_cons_neg _ _ _ _ _ hz]
      apply noRun_append_sep hk ?_ ?_ hz
      · intro t ht hp
        have := ht.length_le
        omega
      · rw [hD, collapse_cons_neg _ _ _ _ _ hz] at ih
        exact noRun_of_seg (List.infix_cons (List.infix_refl _)) ih
  | case3 x xs hx ih =>
    rw [collapse_cons_neg _ _ _ _ _ (by simpa using hx)]
    intro t ht hp
    rcases List.infix_cons_iff.mp ht with h1 | h1
    · cases t with
      | nil => simpa using hk
      | cons y t' =>
        obtain ⟨hy, _⟩ := List.cons_prefix_cons.mp h1
        have := hp y (List.mem_cons_self y t')
        rw [hy] at this
        rw [this] at hx
        simp at hx
    · exact ih t h1 hp

theorem collapse_chars (p : Char → Bool) (k : Nat) (rep : List Char) (q : Char → Bool)
    (hrep : ∀ c ∈ rep, q c = true) :
    ∀ l : List Char, (∀ c ∈ l, q c = true) → ∀ c ∈ collapseRuns p k rep l, q c = true := by
  intro l
  induction l using collapseRuns.induct p k rep with
  | case1 =>
    intro _ c hc
    rw [collapse_nil] at hc
    cases hc
  | case2 x xs hx ih =>
    intro hl c hc
    rw [collapse_cons_pos _ _ _ _ _ hx] at hc
    rcases List.mem_append.mp hc with hc | hc
    · split_ifs at hc with hcmp
      · exact hrep c hc
      · rcases List.mem_cons.mp hc with rfl | hc
        · exact hl c (List.mem_cons_self _ _)
        · exact hl c (List.mem_cons_of_mem _ ((List.takeWhile_prefix p).subset hc))
    · exact ih (fun c' hc' => hl c' (List.mem_cons_of_mem _ ((List.dropWhile_suffix p).subset hc')))
        c hc
  | case3 x xs hx ih =>
    intro hl c hc
    rw [collapse_cons_neg _ _ _ _ _ (by simpa using hx)] at hc
    rcases List.mem_cons.mp hc with rfl | hc
    · exact hl c (List.mem_cons_self _ _)
    · exact ih (fun c' hc' => hl c' (List.mem_cons_of_mem _ hc')) c hc

theorem collapse_length (p : Char → Bool) (k : Nat) (rep : List Char) (hrep : rep.length < k) :
    ∀ l : List Char, (collapseRuns p k rep l).length ≤ l.length := by
  intro l
  induction l using collapseRuns.induct p k rep with
  | case1 => rw [collapse_nil]
  | case2 x xs hx ih =>
    rw [collapse_cons_pos _ _ _ _ _ hx, List.length_append]
    have hsplit : (xs.takeWhile p).length + (xs.dropWhile p).length = xs.length := by
      rw [← List.length_append, List.takeWhile_append_dropWhile]
    split_ifs with hcmp
    · simp only [List.length_cons]
      omega
    · simp only [List.length_cons]
      omega
  | case3 x xs hx ih =>
    rw [collapse_cons_neg _ _ _ _ _ (by simpa using hx)]
    simp only [List.length_cons]
    omega

theorem collapse_append_sep (p : Char → Bool) (k : Nat) (rep : List Char) {c : Char}
    (hc : p c = false) (b : List Char) :
    ∀ a : List Char, collapseRuns p k rep (a ++ c :: b)
      = collapseRuns p k rep a ++ c :: collapseRuns p k rep b := by
  intro a
  induction a using collapseRuns.induct p k rep with
  | case1 =>
    rw [List.nil_append, collapse_nil, List.nil_append]
    exact collapse_cons_neg _ _ _ _ _ hc
  | case2 x xs hx ih =>
    rw [List.cons_append, collapse_cons_pos _ _ _ _ _ hx, collapse_cons_pos _ _ _ _ _ hx]
    rw [takeWhile_append_sep hc, dropWhile_append_sep hc, ih]
    rw [List.append_assoc]
  | case3 x xs hx ih =>
    rw [List.cons_append, collapse_cons_neg _ _ _ _ _ (by simpa using hx),
      collapse_cons_neg _ _ _ _ _ (by simpa using hx), ih, List.cons_append]

theorem collapse_pfree_pref (p : Char → Bool) (k : Nat) (rep : List Char)
    (hrepne : rep ≠ []) (hrepall : ∀ c ∈ rep, p c = true) :
    ∀ l t : List Char, t <+: collapseRuns p k rep l → (∀ c ∈ t, p c = false) → t <+: l := by
  intro l
  induction l using collapseRuns.induct p k rep with
  | case1 =>
    intro t ht hp
    rw [collapse_nil] at ht
    exact ht
  | case2 x xs hx ih =>
    intro t ht hp
    rw [collapse_cons_pos _ _ _ _ _ hx] at ht
    have hBne : (if k ≤ (xs.takeWhile p).length + 1 then rep else x :: xs.takeWhile p) ≠ [] := by
      split_ifs
      · exact hrepne
      · simp
    have hBall : ∀ c ∈ (if k ≤ (xs.takeWhile p).length + 1 then rep
        else x :: xs.takeWhile p), p c = true := by
      split_ifs
      · exact hrepall
      · intro c hc
        rcases List.mem_cons.mp hc with rfl | hc
        · exact hx
        · exact List.mem_takeWhile_imp hc
    rcases prefix_split ht with h1 | ⟨t2, rfl, hpre⟩
    · cases t with
      | nil => exact List.nil_prefix
      | cons y t' =>
        have hyB := hBall y (h1.subset (List.mem_cons_self y t'))
        have := hp y (List.mem_cons_self y t')
        rw [this] at hyB
        cases hyB
    · obtain ⟨c0, hc0⟩ := List.exists_mem_of_ne_nil _ hBne
      have h1 := hBall c0 hc0
      have h2 := hp c0 (List.mem_append.mpr (Or.inl hc0))
      rw [h2] at h1
      cases h1
  | case3 x xs hx ih =>
    intro t ht hp
    rw [collapse_cons_neg _ _ _ _ _ (by simpa using hx)] at ht
    cases t with
    | nil => exact List.nil_prefix
    | cons y t' =>
      obtain ⟨hy, ht'⟩ := List.cons_prefix_cons.mp ht
      exact List.cons_prefix_cons.mpr
        ⟨hy, ih t' ht' (fun c hc => hp c (List.mem_cons_of_mem _ hc))⟩

theorem collapse_preserve_noRun (p : Char → Bool) (k : Nat) (rep : List Char)
    (q : Char → Bool) {m : Nat} (hm : 0 < m)
    (hdisj : ∀ c, q c = true → p c = false)
    (hrepall : ∀ c ∈ rep, p c = true) (hrepne : rep ≠ []) :
    ∀ l : List Char, NoRun q m l → NoRun q m (collapseRuns p k rep l) := by
  intro l
  induction l using collapseRuns.induct p k rep with
  | case1 =>
    intro _
    rw [collapse_nil]
    exact noRun_nil q m hm
  | case2 x xs hx ih =>
    intro h
    rw [collapse_cons_pos _ _ _ _ _ hx]
    intro t ht hp
    have hpfree : ∀ c ∈ t, p c = false := fun c hc => hdisj c (hp c hc)
    have hBne : (if k ≤ (xs.takeWhile p).length + 1 then rep else x :: xs.takeWhile p) ≠ [] := by
      split_ifs
      · exact hrepne
      · simp
    have hBall : ∀ c ∈ (if k ≤ (xs.takeWhile p).length + 1 then rep
        else x :: xs.takeWhile p), p c = true := by
      split_ifs
      · exact hrepall
      · intro c hc
        rcases List.mem_cons.mp hc with rfl | hc
        · exact hx
        · exact List.mem_takeWhile_imp hc
    have hih := ih (noRun_of_seg ((List.dropWhile_suffix p).isInfix.trans
      (List.infix_cons (List.infix_refl xs))) h)
    rcases infix_append_cases ht with h1 | h1 | ⟨t1, t2, rfl, h1, h2, hsuf, hpre⟩
    · cases t with
      | nil => simpa using hm
      | cons y t' =>
        have hyB := hBall y (h1.subset (List.mem_cons_self y t'))
        have := hpfree y (List.mem_cons_self y t')
        rw [this] at hyB
        cases hyB
    · exact hih t h1 hp
    · obtain ⟨c0, hc0⟩ := List.exists_mem_of_ne_nil _ h1
      have hc0B := hBall c0 (hsuf.subset hc0)
      have := hpfree c0 (List.mem_append.mpr (Or.inl hc0))
      rw [this] at hc0B
      cases hc0B
  | case3 x xs hx ih =>
    intro h
    rw [collapse_cons_neg _ _ _ _ _ (by simpa using hx)]
    intro t ht hp
    rcases List.infix_cons_iff.mp ht with h1 | h1
    · cases t with
      | nil => simpa using hm
      | cons y t' =>
        obtain ⟨hy, ht'⟩ := List.cons_prefix_cons.mp h1
        apply h (y :: t') ?_ hp
        have ht'xs : t' <+: xs := collapse_pfree_pref p k rep hrepne hrepall xs t' ht'
          (fun c hc => hdisj c (hp c (List.mem_cons_of_mem _ hc)))
        exact (List.cons_prefix_cons.mpr ⟨hy, ht'xs⟩).isInfix
    · exact ih (noRun_of_seg (List.infix_cons (List.infix_refl xs)) h) t h1 hp

/-! ### `splitOnChar` / `joinWith` lemmas -/

theorem splitOnChar_ne_nil (c : Char) : ∀ l : List Char, splitOnChar c l ≠ [] := by
  intro l
  induction l with
  | nil => simp [splitOnChar]
  | cons x xs ih =>
    rw [splitOnChar]
    cases h : splitOnChar c xs with
    | nil => simp
    | cons h' t' => split_ifs <;> simp

theorem joinWith_cons_of_ne (c : Char) (x : List Char) (ys : List (List Char)) (h : ys ≠ []) :
    joinWith c (x :: ys) = x ++ c :: joinWith c ys := by
  cases ys with
  | nil => exact absurd rfl h
  | cons y t => rfl

theorem joinWith_splitOnChar (c : Char) : ∀ l : List Char, joinWith c (splitOnChar c l) = l := by
  intro l
  induction l with
  | nil => rfl
  | cons x xs ih =>
    rw [splitOnChar]
    cases h : splitOnChar c xs with
    | nil => exact absurd h (splitOnChar_ne_nil c xs)
    | cons hd tl =>
      rw [h] at ih
      dsimp only
      by_cases hx : (x == c) = true
      · rw [if_pos hx]
        have hxc : x = c := by simpa using hx
        simp [joinWith, ih, hxc]
      · rw [if_neg hx]
        cases tl with
        | nil =>
          simp only [joinWith] at ih ⊢
          rw [ih]
        | cons z t2 =>
          show (x :: hd) ++ c :: joinWith c (z :: t2) = x :: xs
          rw [← ih]
          rfl

theorem splitOnChar_pieces (c : Char) : ∀ l hd : List Char, ∀ tl : List (List Char),
    splitOnChar c l = hd :: tl → hd <+: l ∧ ∀ x ∈ tl, x <:+: l := by
  intro l
  induction l with
  | nil =>
    intro hd tl h
    rw [splitOnChar] at h
    injection h with h1 h2
    subst h1
    subst h2
    exact ⟨List.nil_prefix, by simp⟩
  | cons y ys ih =>
    intro hd tl hsplit
    rw [splitOnChar] at hsplit
    cases h : splitOnChar c ys with
    | nil => exact absurd h (splitOnChar_ne_nil c ys)
    | cons hd' tl' =>
      rw [h] at hsplit
      dsimp only at hsplit
      obtain ⟨ih1, ih2⟩ := ih hd' tl' h
      by_cases hy : (y == c) = true
      · rw [if_pos hy] at hsplit
        injection hsplit with h1 h2
        subst h1
        subst h2
        refine ⟨List.nil_prefix, ?_⟩
        intro x hx
        rcases List.mem_cons.mp hx with rfl | hx
        · exact List.infix_cons ih1.isInfix
        · exact List.infix_cons (ih2 x hx)
      · rw [if_neg hy] at hsplit
        injection hsplit with h1 h2
        subst h1
        subst h2
        exact ⟨List.cons_prefix_cons.mpr ⟨rfl, ih1⟩, fun x hx => List.infix_cons (ih2 x hx)⟩

theorem splitOnChar_seg (c : Char) (l : List Char) : ∀ x ∈ splitOnChar c l, x <:+: l := by
  cases h : splitOnChar c l with
  | nil => simp
  | cons hd tl =>
    obtain ⟨h1, h2⟩ := splitOnChar_pieces c l hd tl h
    intro x hx
    rcases List.mem_cons.mp hx with rfl | hx
    · exact h1.isInfix
    · exact h2 x hx

theorem splitOnChar_sepfree (c : Char) : ∀ l : List Char, ∀ x ∈ splitOnChar c l, c ∉ x := by
  intro l
  induction l with
  | nil =>
    intro x hx
    rw [splitOnChar] at hx
    rcases List.mem_cons.mp hx with rfl | hx
    · simp
    · cases hx
  | cons y ys ih =>
    intro x hx
    rw [splitOnChar] at hx
    cases h : splitOnChar c ys with
    | nil => exact absurd h (splitOnChar_ne_nil c ys)
    | cons hd tl =>
      rw [h] at hx
      dsimp only at hx
      by_cases hy : (y == c) = true
      · rw [if_pos hy] at hx
        rcases List.mem_cons.mp hx with rfl | hx
        · simp
        · exact ih x (h ▸ hx)
      · rw [if_neg hy] at hx
        rcases List.mem_cons.mp hx with rfl | hx
        · intro hc
          rcases List.mem_cons.mp hc with hc | hc
          · rw [hc] at hy
            simp at hy
          · exact ih hd (h ▸ List.mem_cons_self hd tl) hc
        · exact ih x (h ▸ List.mem_cons_of_mem _ hx)

theorem splitOnChar_of_sepfree (c : Char) : ∀ x : List Char, c ∉ x → splitOnChar c x = [x] := by
  intro x
  induction x with
  | nil => intro _; rfl
  | cons y x' ih =>
    intro hc
    have hy : ¬ (y == c) = true := by
      intro h
      have hyc : y = c := by simpa using h
      exact hc (hyc ▸ List.mem_cons_self y x')
    rw [splitOnChar, ih (fun hm => hc (List.mem_cons_of_mem _ hm))]
    dsimp only
    rw [if_neg hy]

theorem splitOnChar_append_sep (c : Char) (rest : List Char) :
    ∀ x : List Char, c ∉ x → splitOnChar c (x ++ c :: rest) = x :: splitOnChar c rest := by
  intro x
  induction x with
  | nil =>
    intro _
    rw [List.nil_append, splitOnChar]
    cases h : splitOnChar c rest with
    | nil => exact absurd h (splitOnChar_ne_nil c rest)
    | cons hd tl =>
      dsimp only
      rw [if_pos (by simp)]
  | cons y x' ih =>
    intro hc
    have hy : ¬ (y == c) = true := by
      intro h
      have hyc : y = c := by simpa using h
      exact hc (hyc ▸ List.mem_cons_self y x')
    rw [List.cons_append, splitOnChar, ih (fun hm => hc (List.mem_cons_of_mem _ hm))]
    dsimp only
    rw [if_neg hy]

theorem splitOnChar_joinWith (c : Char) : ∀ xs : List (List Char), xs ≠ [] →
    (∀ x ∈ xs, c ∉ x) → splitOnChar c (joinWith c xs) = xs := by
  intro xs
  induction xs with
  | nil => intro h _; exact absurd rfl h
  | cons x ys ih =>
    intro _ hfree
    cases ys with
    | nil => exact splitOnChar_of_sepfree c x (hfree x (List.mem_cons_self _ _))
    | cons z t =>
      show splitOnChar c (x ++ c :: joinWith c (z :: t)) = x :: z :: t
      rw [splitOnChar_append_sep c _ x (hfree x (List.mem_cons_self _ _)),
        ih (by simp) (fun u hu => hfree u (List.mem_cons_of_mem _ hu))]

theorem mem_joinWith (c : Char) : ∀ (xs : List (List Char)) (y : List Char), y ∈ xs →
    ∀ ch ∈ y, ch ∈ joinWith c xs := by
  intro xs
  induction xs with
  | nil => intro y hy; cases hy
  | cons x ys ih =>
    intro y hy ch hch
    cases ys with
    | nil =>
      rcases List.mem_cons.mp hy with rfl | hy
      · exact hch
      · cases hy
    | cons z t =>
      show ch ∈ x ++ c :: joinWith c (z :: t)
      rcases List.mem_cons.mp hy with rfl | hy
      · exact List.mem_append.mpr (Or.inl hch)
      · exact List.mem_append.mpr (Or.inr (List.mem_cons_of_mem _ (ih y hy ch hch)))

theorem noRun_joinWith {p : Char → Bool} {k : Nat} (hk : 0 < k) {c : Char} (hc : p c = false) :
    ∀ xs : List (List Char), (∀ x ∈ xs, NoRun p k x) → NoRun p k (joinWith c xs) := by
  intro xs
  induction xs with
  | nil => intro _; exact noRun_nil p k hk
  | cons x ys ih =>
    intro h
    cases ys with
    | nil => exact h x (List.mem_cons_self _ _)
    | cons z t =>
      show NoRun p k (x ++ c :: joinWith c (z :: t))
      exact noRun_append_sep hk (h x (List.mem_cons_self _ _))
        (ih (fun u hu => h u (List.mem_cons_of_mem _ hu))) hc

theorem prefix_head_mem {y : Char} {ts A B : List Char} (h : y :: ts <+: A ++ B)
    (hA : A ≠ []) : y ∈ A ∨ A ⊆ y :: ts := by
  rcases prefix_split h with h1 | ⟨t2, heq, _⟩
  · exact Or.inl (h1.subset (List.mem_cons_self _ _))
  · refine Or.inr (fun a ha => ?_)
    rw [heq]
    exact List.mem_append.mpr (Or.inl ha)

theorem noRun_two_joinWith (c : Char) : ∀ xs : List (List Char),
    (∀ x ∈ xs, x ≠ [] ∧ c ∉ x) → NoRun (fun ch => ch == c) 2 (joinWith c xs) := by
  intro xs
  induction xs with
  | nil => intro _; exact noRun_nil _ 2 (by omega)
  | cons x ys ih =>
    intro h
    have hx := h x (List.mem_cons_self _ _)
    cases ys with
    | nil =>
      apply noRun_of_pfree (by omega)
      intro ch hch
      have hne : ch ≠ c := fun he => hx.2 (he ▸ hch)
      simpa using hne
    | cons z t =>
      show NoRun _ 2 (x ++ c :: joinWith c (z :: t))
      intro tt htt hp
      rcases infix_append_cases htt with h1 | h1 | ⟨t1, t2, rfl, hne1, hne2, hsuf, hpre⟩
      · cases tt with
        | nil => simp
        | cons y tt' =>
          have hy : (y == c) = true := hp y (List.mem_cons_self _ _)
          have hyx : y ∈ x := h1.subset (List.mem_cons_self _ _)
          have hyc : y = c := by simpa using hy
          exact absurd (hyc ▸ hyx) hx.2
      · rcases List.infix_cons_iff.mp h1 with h2 | h2
        · cases tt with
          | nil => simp
          | cons y tt' =>
            obtain ⟨hy, htt'⟩ := List.cons_prefix_cons.mp h2
            cases tt' with
            | nil => simp
            | cons w tt'' =>
              have hz := h z (List.mem_cons_of_mem _ (List.mem_cons_self _ _))
              have hwc : w = c := by
                have := hp w (List.mem_cons_of_mem _ (List.mem_cons_self _ _))
                simpa using this
              cases t with
              | nil =>
                have hwz : w ∈ z := htt'.subset (List.mem_cons_self _ _)
                exact absurd (hwc ▸ hwz) hz.2
              | cons t0 t1 =>
                have hjoin : joinWith c (z :: t0 :: t1) = z ++ c :: joinWith c (t0 :: t1) := rfl
                rw [hjoin] at htt'
                rcases prefix_head_mem htt' hz.1 with hmem | hsub
                · exact absurd (hwc ▸ hmem) hz.2
                · obtain ⟨zh, hzh⟩ := List.exists_mem_of_ne_nil _ hz.1
                  have hzht := hsub hzh
                  have hzq : (zh == c) = true := hp zh (List.mem_cons_of_mem _ hzht)
                  have hzhc : zh = c := by simpa using hzq
                  exact absurd (hzhc ▸ hzh) hz.2
        · exact ih (fun u hu => h u (List.mem_cons_of_mem _ hu)) tt h2 hp
      · obtain ⟨c0, hc0⟩ := List.exists_mem_of_ne_nil _ hne1
        have hc0x := hsuf.subset hc0
        have hc0c : c0 = c := by simpa using hp c0 (List.mem_append.mpr (Or.inl hc0))
        exact absurd (hc0c ▸ hc0x) hx.2

/-! ### Strip lemmas -/

theorem pyLStripL_idem (l : List Char) : pyLStripL (pyLStripL l) = pyLStripL l := by
  unfold pyLStripL
  cases h : l.dropWhile isPyWs with
  | nil => rfl
  | cons y ys => exact dropWhile_eq_self_of_head (dropWhile_head_false h)

theorem pyRStripL_idem (l : List Char) : pyRStripL (pyRStripL l) = pyRStripL l := by
  unfold pyRStripL
  rw [List.reverse_reverse]
  cases h : l.reverse.dropWhile isPyWs with
  | nil => rfl
  | cons y ys => rw [dropWhile_eq_self_of_head (dropWhile_head_false h)]

theorem pyLStripL_suffix (l : List Char) : pyLStripL l <:+ l := List.dropWhile_suffix _

theorem pyRStripL_pref (l : List Char) : pyRStripL l <+: l := by
  unfold pyRStripL
  conv_rhs => rw [← List.reverse_reverse l]
  rw [List.reverse_prefix]
  exact List.dropWhile_suffix _

theorem pyStripL_seg (l : List Char) : pyStripL l <:+: l :=
  (pyRStripL_pref (pyLStripL l)).isInfix.trans (pyLStripL_suffix l).isInfix

theorem allws_lstrip {l : List Char} (h : ∀ c ∈ l, isPyWs c = true) : pyLStripL l = [] :=
  List.dropWhile_eq_nil_iff.mpr h

theorem allws_strip {l : List Char} (h : ∀ c ∈ l, isPyWs c = true) : pyStripL l = [] := by
  unfold pyStripL
  rw [allws_lstrip h]
  rfl

theorem exists_nonws_of_strip_ne_nil {l : List Char} (h : pyStripL l ≠ []) :
    ∃ c ∈ l, isPyWs c = false := by
  by_contra hB
  push_neg at hB
  refine h (allws_strip (fun c hc => ?_))
  have := hB c hc
  cases hw : isPyWs c
  · exact absurd hw this
  · rfl

theorem lstrip_allws_append {W B : List Char} (hW : ∀ c ∈ W, isPyWs c = true) {ch : Char}
    (hch : isPyWs ch = false) : pyLStripL (W ++ ch :: B) = ch :: B := by
  unfold pyLStripL
  rw [dropWhile_append_all hW, dropWhile_eq_self_of_head hch]

theorem rstrip_append_allws {A W : List Char} (hW : ∀ c ∈ W, isPyWs c = true) {e : Char}
    (he : isPyWs e = false) : pyRStripL (A ++ e :: W) = A ++ [e] := by
  unfold pyRStripL
  have h1 : (A ++ e :: W).reverse = W.reverse ++ (e :: A.reverse) := by
    rw [List.reverse_append, List.reverse_cons]
    simp [List.append_assoc]
  rw [h1, dropWhile_append_all (fun c hc => hW c (List.mem_reverse.mp hc)),
    dropWhile_eq_self_of_head he, List.reverse_cons, List.reverse_reverse]

theorem strip_decomposition {l : List Char} (h : ∃ c ∈ l, isPyWs c = false) :
    ∃ W1 ces W2 : List Char, ∃ ce : Char,
      l = W1 ++ (ces ++ [ce]) ++ W2 ∧
      (∀ c ∈ W1, isPyWs c = true) ∧ (∀ c ∈ W2, isPyWs c = true) ∧
      isPyWs ce = false ∧
      (∃ ch chs, ces ++ [ce] = ch :: chs ∧ isPyWs ch = false) ∧
      pyLStripL l = (ces ++ [ce]) ++ W2 ∧ pyRStripL l = W1 ++ (ces ++ [ce]) ∧
      pyStripL l = ces ++ [ce] := by
  obtain ⟨c0, hc0, hc0w⟩ := h
  have hz : l.dropWhile isPyWs ≠ [] := by
    intro hnil
    have := List.dropWhile_eq_nil_iff.mp hnil c0 hc0
    rw [hc0w] at this
    cases this
  obtain ⟨zh, zt, hzcons⟩ := List.exists_cons_of_ne_nil hz
  have hzh : isPyWs zh = false := dropWhile_head_false hzcons
  have hcorer : (l.dropWhile isPyWs).reverse.dropWhile isPyWs ≠ [] := by
    intro hnil
    have hmem : zh ∈ (l.dropWhile isPyWs).reverse := by
      rw [hzcons]
      simp
    have := List.dropWhile_eq_nil_iff.mp hnil zh hmem
    rw [hzh] at this
    cases this
  obtain ⟨ce, ces, hcecons⟩ := List.exists_cons_of_ne_nil hcorer
  have hce : isPyWs ce = false := dropWhile_head_false hcecons
  -- z = core ++ W2 with core = (ce :: ces).reverse, W2 abstract
  obtain ⟨W2, hW2all, hzsplit⟩ :
      ∃ W2, (∀ c ∈ W2, isPyWs c = true) ∧
        l.dropWhile isPyWs = (ces.reverse ++ [ce]) ++ W2 := by
    refine ⟨((l.dropWhile isPyWs).reverse.takeWhile isPyWs).reverse,
      fun c hc => List.mem_takeWhile_imp (List.mem_reverse.mp hc), ?_⟩
    have h1 : (l.dropWhile isPyWs).reverse
        = (l.dropWhile isPyWs).reverse.takeWhile isPyWs ++ (ce :: ces) := by
      rw [← hcecons, List.takeWhile_append_dropWhile]
    have h2 := congrArg List.reverse h1
    rw [List.reverse_reverse, List.reverse_append, List.reverse_cons] at h2
    exact h2
  obtain ⟨W1, hW1all, hsplitl⟩ :
      ∃ W1, (∀ c ∈ W1, isPyWs c = true) ∧ l = W1 ++ l.dropWhile isPyWs :=
    ⟨l.takeWhile isPyWs, fun c hc => List.mem_takeWhile_imp hc,
      (List.takeWhile_append_dropWhile isPyWs l).symm⟩
  refine ⟨W1, ces.reverse, W2, ce, ?_, hW1all, hW2all, hce, ?_, ?_, ?_, ?_⟩
  · conv_lhs => rw [hsplitl]
    rw [hzsplit]
    simp [List.append_assoc]
  · -- core = ch :: chs with non-ws head
    have hne : ces.reverse ++ [ce] ≠ [] := by simp
    obtain ⟨ch, chs, hchcons⟩ := List.exists_cons_of_ne_nil hne
    refine ⟨ch, chs, hchcons, ?_⟩
    -- head of z is zh, and z = core ++ W2, so ch = zh
    have h1 : l.dropWhile isPyWs = ch :: (chs ++ W2) := by
      rw [hzsplit, hchcons, List.cons_append]
    rw [hzcons] at h1
    injection h1 with h2 _
    exact h2 ▸ hzh
  · -- pyLStripL l = core ++ W2
    unfold pyLStripL
    exact hzsplit
  · -- pyRStripL l = W1 ++ core
    have hl : l = (W1 ++ ces.reverse) ++ ce :: W2 := by
      conv_lhs => rw [hsplitl]
      rw [hzsplit]
      simp [List.append_assoc]
    rw [hl, rstrip_append_allws hW2all hce]
    simp [List.append_assoc]
  · -- pyStripL l = core
    unfold pyStripL pyLStripL
    rw [hzsplit]
    have hassoc : (ces.reverse ++ [ce]) ++ W2 = ces.reverse ++ ce :: W2 := by
      simp [List.append_assoc]
    rw [hassoc, rstrip_append_allws hW2all hce]

theorem rstrip_cons_allws {W : List Char} (hW : ∀ c ∈ W, isPyWs c = true) {e : Char}
    (he : isPyWs e = false) : pyRStripL (e :: W) = [e] := by
  unfold pyRStripL
  rw [List.reverse_cons, dropWhile_append_all (fun c hc => hW c (List.mem_reverse.mp hc)),
    dropWhile_eq_self_of_head he]
  rfl

theorem strip_of_core {ces : List Char} {ce : Char} (hce : isPyWs ce = false)
    (hhead : ∃ ch chs, ces ++ [ce] = ch :: chs ∧ isPyWs ch = false) :
    pyStripL (ces ++ [ce]) = ces ++ [ce] := by
  obtain ⟨ch, chs, hcons, hch⟩ := hhead
  unfold pyStripL
  have h1 : pyLStripL (ces ++ [ce]) = ces ++ [ce] := by
    unfold pyLStripL
    rw [hcons]
    exact dropWhile_eq_self_of_head hch
  rw [h1]
  exact rstrip_append_allws (fun c hc => absurd hc (List.not_mem_nil c)) hce

theorem pyStripL_idem (l : List Char) : pyStripL (pyStripL l) = pyStripL l := by
  by_cases h : pyStripL l = []
  · rw [h]
    rfl
  · obtain ⟨W1, ces, W2, ce, _, _, _, hce, hhead, _, _, hstrip⟩ :=
      strip_decomposition (exists_nonws_of_strip_ne_nil h)
    rw [hstrip]
    exact strip_of_core hce hhead

theorem pyStripL_lstrip (l : List Char) : pyStripL (pyLStripL l) = pyStripL l := by
  unfold pyStripL
  rw [pyLStripL_idem]

theorem all_ws_of_no_nonws {l : List Char} (h : ¬ ∃ c ∈ l, isPyWs c = false) :
    ∀ c ∈ l, isPyWs c = true := by
  push_neg at h
  intro c hc
  cases hw : isPyWs c
  · exact absurd hw (h c hc)
  · rfl

theorem pyStripL_rstrip (l : List Char) : pyStripL (pyRStripL l) = pyStripL l := by
  by_cases h : ∃ c ∈ l, isPyWs c = false
  · obtain ⟨W1, ces, W2, ce, _, hW1, _, hce, hhead, _, hr, hs⟩ := strip_decomposition h
    obtain ⟨ch, chs, hcons, hch⟩ := hhead
    rw [hr, hs]
    unfold pyStripL
    have h1 : pyLStripL (W1 ++ (ces ++ [ce])) = ces ++ [ce] := by
      rw [hcons]
      exact lstrip_allws_append hW1 hch
    rw [h1]
    exact rstrip_append_allws (fun c hc => absurd hc (List.not_mem_nil c)) hce
  · have hall := all_ws_of_no_nonws h
    have hr : pyRStripL l = [] := by
      unfold pyRStripL
      rw [List.dropWhile_eq_nil_iff.mpr (fun c hc => hall c (List.mem_reverse.mp hc))]
      rfl
    rw [hr, allws_strip hall]
    rfl

theorem lstrip_append_of_nonws {y : List Char} (hy : ∃ c ∈ y, isPyWs c = false)
    (z : List Char) : pyLStripL (y ++ z) = pyLStripL y ++ z := by
  have hd : y.dropWhile isPyWs ≠ [] := by
    intro hnil
    obtain ⟨c, hc, hw⟩ := hy
    have := List.dropWhile_eq_nil_iff.mp hnil c hc
    rw [hw] at this
    cases this
  obtain ⟨ch, cs, hcons⟩ := List.exists_cons_of_ne_nil hd
  have hch : isPyWs ch = false := dropWhile_head_false hcons
  have hsplit : y.takeWhile isPyWs ++ y.dropWhile isPyWs = y :=
    List.takeWhile_append_dropWhile isPyWs y
  have hy2 : y = y.takeWhile isPyWs ++ ch :: cs := by
    rw [← hcons, hsplit]
  conv_lhs => rw [hy2]
  rw [List.append_assoc, List.cons_append,
    lstrip_allws_append (fun c hc => List.mem_takeWhile_imp hc) hch]
  have hly : pyLStripL y = ch :: cs := hcons
  rw [hly]
  rfl

theorem rstrip_append_of_nonws (y : List Char) {z : List Char}
    (hz : ∃ c ∈ z, isPyWs c = false) : pyRStripL (y ++ z) = y ++ pyRStripL z := by
  have hd : z.reverse.dropWhile isPyWs ≠ [] := by
    intro hnil
    obtain ⟨c, hc, hw⟩ := hz
    have := List.dropWhile_eq_nil_iff.mp hnil c (List.mem_reverse.mpr hc)
    rw [hw] at this
    cases this
  obtain ⟨ce, ces, hcons⟩ := List.exists_cons_of_ne_nil hd
  have hce : isPyWs ce = false := dropWhile_head_false hcons
  have hz2 : z = ces.reverse ++ ce :: (z.reverse.takeWhile isPyWs).reverse := by
    have h1 : z.reverse = z.reverse.takeWhile isPyWs ++ (ce :: ces) := by
      rw [← hcons, List.takeWhile_append_dropWhile]
    have h2 := congrArg List.reverse h1
    rw [List.reverse_reverse, List.reverse_append, List.reverse_cons] at h2
    conv_lhs => rw [h2]
    simp [List.append_assoc]
  have hW : ∀ c ∈ (z.reverse.takeWhile isPyWs).reverse, isPyWs c = true :=
    fun c hc => List.mem_takeWhile_imp (List.mem_reverse.mp hc)
  conv_lhs => rw [hz2, ← List.append_assoc]
  rw [rstrip_append_allws hW hce]
  conv_rhs => rw [hz2]
  rw [rstrip_append_allws hW hce]
  simp [List.append_assoc]

theorem filter_dropWhile_ws (q : Char → Bool) (hq : ∀ c, q c = true → isPyWs c = false)
    (l : List Char) : (l.dropWhile isPyWs).filter q = l.filter q := by
  have hsplit : l.takeWhile isPyWs ++ l.dropWhile isPyWs = l :=
    List.takeWhile_append_dropWhile isPyWs l
  conv_rhs => rw [← hsplit]
  rw [List.filter_append]
  have h0 : (l.takeWhile isPyWs).filter q = [] := by
    rw [List.filter_eq_nil_iff]
    intro a ha hqa
    have hws := List.mem_takeWhile_imp ha
    rw [hq a hqa] at hws
    cases hws
  rw [h0, List.nil_append]

theorem filter_pyLStripL (q : Char → Bool) (hq : ∀ c, q c = true → isPyWs c = false)
    (l : List Char) : (pyLStripL l).filter q = l.filter q := by
  unfold pyLStripL
  exact filter_dropWhile_ws q hq l

theorem filter_pyRStripL (q : Char → Bool) (hq : ∀ c, q c = true → isPyWs c = false)
    (l : List Char) : (pyRStripL l).filter q = l.filter q := by
  unfold pyRStripL
  rw [List.filter_reverse, filter_dropWhile_ws q hq, List.filter_reverse,
    List.reverse_reverse]

theorem filter_pyStripL (q : Char → Bool) (hq : ∀ c, q c = true → isPyWs c = false)
    (l : List Char) : (pyStripL l).filter q = l.filter q := by
  unfold pyStripL
  rw [filter_pyRStripL q hq, filter_pyLStripL q hq]

theorem exists_nonws_iff_filter (x : List Char) :
    (∃ c ∈ x, isPyWs c = false) ↔ x.filter (fun c => !isPyWs c) ≠ [] := by
  constructor
  · rintro ⟨c, hc, hw⟩ hnil
    have hmem : c ∈ x.filter (fun c => !isPyWs c) :=
      List.mem_filter.mpr ⟨hc, by simp [hw]⟩
    rw [hnil] at hmem
    cases hmem
  · intro h
    obtain ⟨c, hc⟩ := List.exists_mem_of_ne_nil _ h
    obtain ⟨hcx, hcw⟩ := List.mem_filter.mp hc
    exact ⟨c, hcx, by simpa using hcw⟩

/-! ### Character-class facts -/

theorem meaningful_not_ws (c : Char) (h : isMeaningful c = true) : isPyWs c = false := by
  unfold isMeaningful at h
  unfold isPyWs
  simp only [Bool.or_eq_true, Bool.and_eq_true, decide_eq_true_eq, beq_iff_eq] at h
  simp only [Bool.or_eq_false_iff, Bool.and_eq_false_iff, decide_eq_false_iff_not,
    beq_eq_false_iff_ne, ne_eq]
  omega

theorem sptab_cases (c : Char) (h : isSpTab c = true) : c = ' ' ∨ c = '\t' := by
  unfold isSpTab at h
  simpa only [Bool.or_eq_true, beq_iff_eq] using h

theorem sptab_ws (c : Char) (h : isSpTab c = true) : isPyWs c = true := by
  rcases sptab_cases c h with rfl | rfl <;> decide

theorem sptab_not_meaningful (c : Char) (h : isSpTab c = true) : isMeaningful c = false := by
  rcases sptab_cases c h with rfl | rfl <;> decide

theorem nl_eq (c : Char) (h : isNl c = true) : c = '\n' := by
  unfold isNl at h
  simpa only [beq_iff_eq] using h

theorem nl_ws (c : Char) (h : isNl c = true) : isPyWs c = true := by
  rw [nl_eq c h]
  decide

theorem dot_eq (c : Char) (h : isDotC c = true) : c = '.' := by
  unfold isDotC at h
  simpa only [beq_iff_eq] using h

theorem bang_eq (c : Char) (h : isBangC c = true) : c = '!' := by
  unfold isBangC at h
  simpa only [beq_iff_eq] using h

theorem qm_eq (c : Char) (h : isQmC c = true) : c = '?' := by
  unfold isQmC at h
  simpa only [beq_iff_eq] using h

theorem dot_not_bang (c : Char) (h : isDotC c = true) : isBangC c = false := by
  rw [dot_eq c h]
  decide

theorem dot_not_qm (c : Char) (h : isDotC c = true) : isQmC c = false := by
  rw [dot_eq c h]
  decide

theorem dot_not_sptab (c : Char) (h : isDotC c = true) : isSpTab c = false := by
  rw [dot_eq c h]
  decide

theorem dot_not_nl (c : Char) (h : isDotC c = true) : isNl c = false := by
  rw [dot_eq c h]
  decide

theorem bang_not_qm (c : Char) (h : isBangC c = true) : isQmC c = false := by
  rw [bang_eq c h]
  decide

theorem bang_not_sptab (c : Char) (h : isBangC c = true) : isSpTab c = false := by
  rw [bang_eq c h]
  decide

theorem bang_not_nl (c : Char) (h : isBangC c = true) : isNl c = false := by
  rw [bang_eq c h]
  decide

theorem qm_not_sptab (c : Char) (h : isQmC c = true) : isSpTab c = false := by
  rw [qm_eq c h]
  decide

theorem qm_not_nl (c : Char) (h : isQmC c = true) : isNl c = false := by
  rw [qm_eq c h]
  decide

theorem sptab_not_nl (c : Char) (h : isSpTab c = true) : isNl c = false := by
  rcases sptab_cases c h with rfl | rfl <;> decide

theorem nlc_not_sptab (c : Char) (h : (c == '\n') = true) : isSpTab c = false := by
  have hc : c = '\n' := by simpa using h
  rw [hc]
  decide
/-! ### `collapseRuns` interaction with filters, joins and strips -/

theorem filter_collapse (p : Char → Bool) (k : Nat) (rep : List Char) (q : Char → Bool)
    (hpq : ∀ c, p c = true → q c = false) (hrepq : ∀ c ∈ rep, q c = false) :
    ∀ l : List Char, (collapseRuns p k rep l).filter q = l.filter q := by
  intro l
  induction l using collapseRuns.induct p k rep with
  | case1 => rw [collapse_nil]
  | case2 x xs hx ih =>
    rw [collapse_cons_pos _ _ _ _ _ hx, List.filter_append]
    have hB : (if k ≤ (xs.takeWhile p).length + 1 then rep
        else x :: xs.takeWhile p).filter q = [] := by
      rw [List.filter_eq_nil_iff]
      intro a ha hqa
      split_ifs at ha with hcmp
      · rw [hrepq a ha] at hqa
        cases hqa
      · rcases List.mem_cons.mp ha with rfl | ha
        · rw [hpq a hx] at hqa
          cases hqa
        · rw [hpq a (List.mem_takeWhile_imp ha)] at hqa
          cases hqa
    have hTW : (xs.takeWhile p).filter q = [] := by
      rw [List.filter_eq_nil_iff]
      intro a ha hqa
      rw [hpq a (List.mem_takeWhile_imp ha)] at hqa
      cases hqa
    have hqx : q x = false := hpq x hx
    have hxs : (x :: xs).filter q = (xs.dropWhile p).filter q := by
      rw [List.filter_cons, if_neg (by rw [hqx]; exact Bool.false_ne_true)]
      have hsplit : xs.takeWhile p ++ xs.dropWhile p = xs :=
        List.takeWhile_append_dropWhile p xs
      conv_lhs => rw [← hsplit]
      rw [List.filter_append, hTW, List.nil_append]
    rw [hB, List.nil_append, ih, hxs]
  | case3 x xs hx ih =>
    rw [collapse_cons_neg _ _ _ _ _ (by simpa using hx), List.filter_cons, List.filter_cons, ih]

theorem collapse_joinWith (p : Char → Bool) (k : Nat) (rep : List Char) {c : Char}
    (hc : p c = false) : ∀ xs : List (List Char),
    collapseRuns p k rep (joinWith c xs) = joinWith c (xs.map (collapseRuns p k rep)) := by
  intro xs
  induction xs with
  | nil => exact collapse_nil p k rep
  | cons x ys ih =>
    cases ys with
    | nil => rfl
    | cons z t =>
      show collapseRuns p k rep (x ++ c :: joinWith c (z :: t)) = _
      rw [collapse_append_sep p k rep hc _ x, ih]
      rfl

theorem strip_collapse (p : Char → Bool) (k : Nat) (rep : List Char)
    (hpws : ∀ c, p c = true → isPyWs c = true)
    (hrepall : ∀ c ∈ rep, p c = true) (hrepk : rep.length < k)
    {x : List Char} (hx : ∃ c ∈ x, isPyWs c = false) :
    1 ≤ (pyStripL (collapseRuns p k rep x)).length ∧
      (pyStripL (collapseRuns p k rep x)).length ≤ (pyStripL x).length := by
  obtain ⟨W1, ces, W2, ce, hdec, hW1, hW2, hce, hhead, _, _, hs⟩ := strip_decomposition hx
  obtain ⟨ch, chs, hcons, hch⟩ := hhead
  have hcep : p ce = false := by
    cases hp : p ce
    · rfl
    · rw [hpws ce hp] at hce
      cases hce
  have hchp : p ch = false := by
    cases hp : p ch
    · rfl
    · rw [hpws ch hp] at hch
      cases hch
  have hrepws : ∀ c ∈ rep, isPyWs c = true := fun c hc => hpws c (hrepall c hc)
  have hCW1ws : ∀ c ∈ collapseRuns p k rep W1, isPyWs c = true :=
    collapse_chars p k rep isPyWs hrepws W1 hW1
  have hCW2ws : ∀ c ∈ collapseRuns p k rep W2, isPyWs c = true :=
    collapse_chars p k rep isPyWs hrepws W2 hW2
  cases ces with
  | nil =>
    have hchce : ch = ce := by
      rw [List.nil_append] at hcons
      injection hcons with h1 _
      exact h1.symm
    have hx2 : x = W1 ++ ce :: W2 := by
      rw [hdec]
      simp
    have hstrip : pyStripL (collapseRuns p k rep x) = [ce] := by
      rw [hx2, collapse_append_sep p k rep hcep W2 W1]
      unfold pyStripL
      rw [lstrip_allws_append hCW1ws hce]
      exact rstrip_cons_allws hCW2ws hce
    rw [hstrip, hs]
    simp
  | cons c1 ces' =>
    have hc1 : c1 = ch ∧ ces' ++ [ce] = chs := by
      rw [List.cons_append] at hcons
      injection hcons with h1 h2
      exact ⟨h1, h2⟩
    obtain ⟨rfl, _⟩ := hc1
    have hx2 : x = W1 ++ c1 :: (ces' ++ ce :: W2) := by
      rw [hdec]
      simp [List.append_assoc]
    have hstrip : pyStripL (collapseRuns p k rep x)
        = (c1 :: collapseRuns p k rep ces') ++ [ce] := by
      rw [hx2, collapse_append_sep p k rep hchp _ W1,
        collapse_append_sep p k rep hcep W2 ces']
      unfold pyStripL
      rw [lstrip_allws_append hCW1ws hch]
      have hform : c1 :: (collapseRuns p k rep ces' ++ ce :: collapseRuns p k rep W2)
          = (c1 :: collapseRuns p k rep ces') ++ ce :: collapseRuns p k rep W2 := rfl
      rw [hform]
      exact rstrip_append_allws hCW2ws hce
    rw [hstrip, hs]
    have hlen := collapse_length p k rep hrepk ces'
    simp only [List.length_append, List.length_cons, List.cons_append]
    simp only [List.length_append, List.length_cons] at *
    omega
/-! ### `keepLine` stability lemmas -/

theorem keepLine_iff (l : List Char) : keepLine l = true ↔
    (pyStripL l).length ≠ 0 ∧
      (2 ≤ meaningfulCount l ∨ 3 * (pyStripL l).length < 10 * meaningfulCount l) := by
  unfold keepLine
  simp

theorem keepLine_strip_ne_nil {l : List Char} (h : keepLine l = true) : pyStripL l ≠ [] := by
  intro hnil
  have h1 := (keepLine_iff l).mp h
  rw [hnil] at h1
  exact h1.1 rfl

theorem keepLine_ne_nil {l : List Char} (h : keepLine l = true) : l ≠ [] := by
  intro hnil
  exact keepLine_strip_ne_nil h (by rw [hnil]; rfl)

theorem keepLine_congr {y z : List Char} (hm : meaningfulCount z = meaningfulCount y)
    (ht : pyStripL z = pyStripL y) : keepLine z = keepLine y := by
  unfold keepLine
  rw [hm, ht]

theorem meaningfulCount_lstrip (y : List Char) :
    meaningfulCount (pyLStripL y) = meaningfulCount y := by
  unfold meaningfulCount
  rw [filter_pyLStripL isMeaningful meaningful_not_ws]

theorem meaningfulCount_rstrip (y : List Char) :
    meaningfulCount (pyRStripL y) = meaningfulCount y := by
  unfold meaningfulCount
  rw [filter_pyRStripL isMeaningful meaningful_not_ws]

theorem meaningfulCount_strip (y : List Char) :
    meaningfulCount (pyStripL y) = meaningfulCount y := by
  unfold meaningfulCount
  rw [filter_pyStripL isMeaningful meaningful_not_ws]

theorem keepLine_lstrip (y : List Char) : keepLine (pyLStripL y) = keepLine y :=
  keepLine_congr (meaningfulCount_lstrip y) (pyStripL_lstrip y)

theorem keepLine_rstrip (y : List Char) : keepLine (pyRStripL y) = keepLine y :=
  keepLine_congr (meaningfulCount_rstrip y) (pyStripL_rstrip y)

theorem keepLine_strip (y : List Char) : keepLine (pyStripL y) = keepLine y :=
  keepLine_congr (meaningfulCount_strip y) (pyStripL_idem y)

theorem meaningfulCount_collapse_sptab (y : List Char) :
    meaningfulCount (collapseRuns isSpTab 3 [' ', ' '] y) = meaningfulCount y := by
  unfold meaningfulCount
  rw [filter_collapse isSpTab 3 [' ', ' '] isMeaningful sptab_not_meaningful (by decide) y]

theorem keepLine_collapse_sptab {y : List Char} (h : keepLine y = true) :
    keepLine (collapseRuns isSpTab 3 [' ', ' '] y) = true := by
  obtain ⟨ht, hm⟩ := (keepLine_iff y).mp h
  have hnonws : ∃ c ∈ y, isPyWs c = false :=
    exists_nonws_of_strip_ne_nil (fun hnil => ht (by rw [hnil]; rfl))
  obtain ⟨h1, h2⟩ := strip_collapse isSpTab 3 [' ', ' '] sptab_ws (by decide) (by decide) hnonws
  refine (keepLine_iff _).mpr ⟨by omega, ?_⟩
  rw [meaningfulCount_collapse_sptab]
  omega

theorem nonws_collapse (p : Char → Bool) (k : Nat) (rep : List Char)
    (hpws : ∀ c, p c = true → isPyWs c = true) (hrepall : ∀ c ∈ rep, p c = true)
    {y : List Char} (hy : ∃ c ∈ y, isPyWs c = false) :
    ∃ c ∈ collapseRuns p k rep y, isPyWs c = false := by
  rw [exists_nonws_iff_filter] at hy ⊢
  rw [filter_collapse p k rep _ (fun c hc => by rw [hpws c hc]; rfl)
    (fun c hc => by rw [hpws c (hrepall c hc)]; rfl)]
  exact hy
/-! ### Global strip of a joined line list -/

theorem joinWith_chars (c : Char) : ∀ xs : List (List Char), ∀ ch ∈ joinWith c xs,
    ch = c ∨ ∃ x ∈ xs, ch ∈ x := by
  intro xs
  induction xs with
  | nil =>
    intro ch hch
    cases hch
  | cons x ys ih =>
    intro ch hch
    cases ys with
    | nil => exact Or.inr ⟨x, List.mem_cons_self _ _, hch⟩
    | cons z t =>
      have hj : joinWith c (x :: z :: t) = x ++ c :: joinWith c (z :: t) := rfl
      rw [hj] at hch
      rcases List.mem_append.mp hch with h1 | h1
      · exact Or.inr ⟨x, List.mem_cons_self _ _, h1⟩
      · rcases List.mem_cons.mp h1 with rfl | h1
        · exact Or.inl rfl
        · rcases ih ch h1 with h2 | ⟨u, hu, h3⟩
          · exact Or.inl h2
          · exact Or.inr ⟨u, List.mem_cons_of_mem _ hu, h3⟩

theorem stripLast_ne_nil {ys : List (List Char)} (h : ys ≠ []) : stripLast ys ≠ [] := by
  cases ys with
  | nil => exact absurd rfl h
  | cons y t =>
    cases t with
    | nil => simp [stripLast]
    | cons z t' => simp [stripLast]

theorem mem_stripLast : ∀ {ys : List (List Char)} {x : List Char}, x ∈ stripLast ys →
    ∃ y ∈ ys, x = y ∨ x = pyRStripL y := by
  intro ys
  induction ys with
  | nil =>
    intro x hx
    cases hx
  | cons y t ih =>
    intro x hx
    cases t with
    | nil =>
      have he : stripLast [y] = [pyRStripL y] := rfl
      rw [he] at hx
      rcases List.mem_cons.mp hx with rfl | hx
      · exact ⟨y, List.mem_cons_self _ _, Or.inr rfl⟩
      · cases hx
    | cons z t' =>
      have he : stripLast (y :: z :: t') = y :: stripLast (z :: t') := rfl
      rw [he] at hx
      rcases List.mem_cons.mp hx with heq | hx
      · exact ⟨y, List.mem_cons_self _ _, Or.inl heq⟩
      · obtain ⟨u, hu, h2⟩ := ih hx
        exact ⟨u, List.mem_cons_of_mem _ hu, h2⟩

theorem mem_edgeStrip {ys : List (List Char)} {x : List Char} (hx : x ∈ edgeStrip ys) :
    ∃ y ∈ ys, x = y ∨ x = pyLStripL y ∨ x = pyRStripL y ∨ x = pyStripL y := by
  cases ys with
  | nil => cases hx
  | cons y t =>
    cases t with
    | nil =>
      have he : edgeStrip [y] = [pyStripL y] := rfl
      rw [he] at hx
      rcases List.mem_cons.mp hx with rfl | hx
      · exact ⟨y, List.mem_cons_self _ _, Or.inr (Or.inr (Or.inr rfl))⟩
      · cases hx
    | cons z t' =>
      have he : edgeStrip (y :: z :: t') = pyLStripL y :: stripLast (z :: t') := rfl
      rw [he] at hx
      rcases List.mem_cons.mp hx with rfl | hx
      · exact ⟨y, List.mem_cons_self _ _, Or.inr (Or.inl rfl)⟩
      · obtain ⟨u, hu, h2⟩ := mem_stripLast hx
        rcases h2 with heq | heq
        · exact ⟨u, List.mem_cons_of_mem _ hu, Or.inl heq⟩
        · exact ⟨u, List.mem_cons_of_mem _ hu, Or.inr (Or.inr (Or.inl heq))⟩

theorem edgeStrip_ne_nil {ys : List (List Char)} (h : ys ≠ []) : edgeStrip ys ≠ [] := by
  cases ys with
  | nil => exact absurd rfl h
  | cons y t =>
    cases t with
    | nil => simp [edgeStrip]
    | cons z t' => simp [edgeStrip]

theorem rstrip_joinWith (c : Char) : ∀ ys : List (List Char),
    (∀ x ∈ ys, ∃ ch ∈ x, isPyWs ch = false) →
    pyRStripL (joinWith c ys) = joinWith c (stripLast ys) := by
  intro ys
  induction ys with
  | nil =>
    intro _
    rfl
  | cons y t ih =>
    intro h
    cases t with
    | nil => rfl
    | cons z t' =>
      have hj : joinWith c (y :: z :: t') = y ++ c :: joinWith c (z :: t') := rfl
      have hnz : ∃ ch ∈ joinWith c (z :: t'), isPyWs ch = false := by
        obtain ⟨ch, hch, hw⟩ := h z (List.mem_cons_of_mem _ (List.mem_cons_self _ _))
        exact ⟨ch, mem_joinWith c (z :: t') z (List.mem_cons_self _ _) ch hch, hw⟩
      have hnzc : ∃ ch ∈ c :: joinWith c (z :: t'), isPyWs ch = false := by
        obtain ⟨ch, hch, hw⟩ := hnz
        exact ⟨ch, List.mem_cons_of_mem _ hch, hw⟩
      have hc2 : pyRStripL (c :: joinWith c (z :: t'))
          = c :: pyRStripL (joinWith c (z :: t')) := by
        simpa using rstrip_append_of_nonws [c] hnz
      rw [hj, rstrip_append_of_nonws y hnzc, hc2,
        ih (fun u hu => h u (List.mem_cons_of_mem _ hu))]
      have hs : stripLast (y :: z :: t') = y :: stripLast (z :: t') := rfl
      rw [hs, joinWith_cons_of_ne c y _ (stripLast_ne_nil (by simp))]

theorem strip_joinWith (c : Char) (ys : List (List Char))
    (h : ∀ x ∈ ys, ∃ ch ∈ x, isPyWs ch = false) :
    pyStripL (joinWith c ys) = joinWith c (edgeStrip ys) := by
  cases ys with
  | nil => rfl
  | cons y t =>
    cases t with
    | nil => rfl
    | cons z t' =>
      have hj : joinWith c (y :: z :: t') = y ++ c :: joinWith c (z :: t') := rfl
      have hy := h y (List.mem_cons_self _ _)
      have hnz : ∃ ch ∈ joinWith c (z :: t'), isPyWs ch = false := by
        obtain ⟨ch, hch, hw⟩ := h z (List.mem_cons_of_mem _ (List.mem_cons_self _ _))
        exact ⟨ch, mem_joinWith c (z :: t') z (List.mem_cons_self _ _) ch hch, hw⟩
      have hnzc : ∃ ch ∈ c :: joinWith c (z :: t'), isPyWs ch = false := by
        obtain ⟨ch, hch, hw⟩ := hnz
        exact ⟨ch, List.mem_cons_of_mem _ hch, hw⟩
      have hc2 : pyRStripL (c :: joinWith c (z :: t'))
          = c :: pyRStripL (joinWith c (z :: t')) := by
        simpa using rstrip_append_of_nonws [c] hnz
      unfold pyStripL
      rw [hj, lstrip_append_of_nonws hy, rstrip_append_of_nonws _ hnzc, hc2,
        rstrip_joinWith c (z :: t') (fun u hu => h u (List.mem_cons_of_mem _ hu))]
      have he : edgeStrip (y :: z :: t') = pyLStripL y :: stripLast (z :: t') := rfl
      rw [he, joinWith_cons_of_ne c _ _ (stripLast_ne_nil (by simp))]
/-! ### The cleaners establish the invariants -/

theorem invT_cleanLt (l : List Char) : InvT (cleanLt l) := by
  unfold cleanLt
  set l0 := l.filter (fun c => !isNoiseT c) with hl0
  set l1 := collapseRuns isDotC 4 ['.', '.', '.'] l0 with hl1
  set l2 := collapseRuns isBangC 3 ['!', '!'] l1 with hl2
  set l3 := collapseRuns isQmC 3 ['?', '?'] l2 with hl3
  set l4 := collapseRuns isSpTab 3 [' ', ' '] l3 with hl4
  set l5 := collapseRuns isNl 3 ['\n', '\n'] l4 with hl5
  have hn0 : ∀ c ∈ l0, (!isNoiseT c) = true := fun c hc => (List.mem_filter.mp hc).2
  have hn1 : ∀ c ∈ l1, (!isNoiseT c) = true :=
    collapse_chars isDotC 4 ['.', '.', '.'] (fun c => !isNoiseT c) (by decide) l0 hn0
  have hn2 : ∀ c ∈ l2, (!isNoiseT c) = true :=
    collapse_chars isBangC 3 ['!', '!'] (fun c => !isNoiseT c) (by decide) l1 hn1
  have hn3 : ∀ c ∈ l3, (!isNoiseT c) = true :=
    collapse_chars isQmC 3 ['?', '?'] (fun c => !isNoiseT c) (by decide) l2 hn2
  have hn4 : ∀ c ∈ l4, (!isNoiseT c) = true :=
    collapse_chars isSpTab 3 [' ', ' '] (fun c => !isNoiseT c) (by decide) l3 hn3
  have hn5 : ∀ c ∈ l5, (!isNoiseT c) = true :=
    collapse_chars isNl 3 ['\n', '\n'] (fun c => !isNoiseT c) (by decide) l4 hn4
  have hd1 : NoRun isDotC 4 l1 := collapse_noRun isDotC 4 ['.', '.', '.'] (by omega) (by decide) l0
  have hd2 : NoRun isDotC 4 l2 := collapse_preserve_noRun isBangC 3 ['!', '!'] isDotC (by omega)
    dot_not_bang (by decide) (by decide) l1 hd1
  have hd3 : NoRun isDotC 4 l3 := collapse_preserve_noRun isQmC 3 ['?', '?'] isDotC (by omega)
    dot_not_qm (by decide) (by decide) l2 hd2
  have hd4 : NoRun isDotC 4 l4 := collapse_preserve_noRun isSpTab 3 [' ', ' '] isDotC (by omega)
    dot_not_sptab (by decide) (by decide) l3 hd3
  have hd5 : NoRun isDotC 4 l5 := collapse_preserve_noRun isNl 3 ['\n', '\n'] isDotC (by omega)
    dot_not_nl (by decide) (by decide) l4 hd4
  have hb2 : NoRun isBangC 3 l2 := collapse_noRun isBangC 3 ['!', '!'] (by omega) (by decide) l1
  have hb3 : NoRun isBangC 3 l3 := collapse_preserve_noRun isQmC 3 ['?', '?'] isBangC (by omega)
    bang_not_qm (by decide) (by decide) l2 hb2
  have hb4 : NoRun isBangC 3 l4 := collapse_preserve_noRun isSpTab 3 [' ', ' '] isBangC (by omega)
    bang_not_sptab (by decide) (by decide) l3 hb3
  have hb5 : NoRun isBangC 3 l5 := collapse_preserve_noRun isNl 3 ['\n', '\n'] isBangC (by omega)
    bang_not_nl (by decide) (by decide) l4 hb4
  have hq3 : NoRun isQmC 3 l3 := collapse_noRun isQmC 3 ['?', '?'] (by omega) (by decide) l2
  have hq4 : NoRun isQmC 3 l4 := collapse_preserve_noRun isSpTab 3 [' ', ' '] isQmC (by omega)
    qm_not_sptab (by decide) (by decide) l3 hq3
  have hq5 : NoRun isQmC 3 l5 := collapse_preserve_noRun isNl 3 ['\n', '\n'] isQmC (by omega)
    qm_not_nl (by decide) (by decide) l4 hq4
  have hs4 : NoRun isSpTab 3 l4 := collapse_noRun isSpTab 3 [' ', ' '] (by omega) (by decide) l3
  have hs5 : NoRun isSpTab 3 l5 := collapse_preserve_noRun isNl 3 ['\n', '\n'] isSpTab (by omega)
    sptab_not_nl (by decide) (by decide) l4 hs4
  have hnl5 : NoRun isNl 3 l5 := collapse_noRun isNl 3 ['\n', '\n'] (by omega) (by decide) l4
  have hinf : pyStripL l5 <:+: l5 := pyStripL_seg l5
  refine ⟨?_, ?_, ?_, ?_, ?_, ?_, pyStripL_idem l5⟩
  · intro c hc
    simpa using hn5 c (hinf.subset hc)
  · exact noRun_of_seg hinf hd5
  · exact noRun_of_seg hinf hb5
  · exact noRun_of_seg hinf hq5
  · exact noRun_of_seg hinf hs5
  · exact noRun_of_seg hinf hnl5

theorem invW_cleanLw (l : List Char) : cleanLw l = [] ∨ InvW (cleanLw l) := by
  unfold cleanLw filterLinesW
  set l0 := l.filter (fun c => !isNoiseW c) with hl0
  set l1 := collapseRuns isDotC 4 ['.', '.', '.'] l0 with hl1
  set l2 := collapseRuns isBangC 3 ['!', '!'] l1 with hl2
  set l3 := collapseRuns isQmC 3 ['?', '?'] l2 with hl3
  set kept := (splitOnChar '\n' l3).filter keepLine with hkept
  set l4 := joinWith '\n' kept with hl4
  set l5 := collapseRuns isSpTab 3 [' ', ' '] l4 with hl5
  set l6 := collapseRuns isNl 3 ['\n', '\n'] l5 with hl6
  by_cases hk : kept = []
  · left
    rw [hl6, hl5, hl4, hk]
    have hj : joinWith '\n' ([] : List (List Char)) = [] := rfl
    rw [hj, collapse_nil, collapse_nil]
    rfl
  · right
    have hkeepAll : ∀ x ∈ kept, keepLine x = true := fun x hx => (List.mem_filter.mp hx).2
    have hkeptPieces : ∀ x ∈ kept, x ∈ splitOnChar '\n' l3 :=
      fun x hx => (List.mem_filter.mp hx).1
    have hkeptNe : ∀ x ∈ kept, x ≠ [] := fun x hx => keepLine_ne_nil (hkeepAll x hx)
    have hkeptFree : ∀ x ∈ kept, '\n' ∉ x :=
      fun x hx => splitOnChar_sepfree '\n' l3 x (hkeptPieces x hx)
    have hkeptNonws : ∀ x ∈ kept, ∃ c ∈ x, isPyWs c = false :=
      fun x hx => exists_nonws_of_strip_ne_nil (keepLine_strip_ne_nil (hkeepAll x hx))
    have hn0 : ∀ c ∈ l0, (!isNoiseW c) = true := fun c hc => (List.mem_filter.mp hc).2
    have hn1 : ∀ c ∈ l1, (!isNoiseW c) = true :=
      collapse_chars isDotC 4 ['.', '.', '.'] (fun c => !isNoiseW c) (by decide) l0 hn0
    have hn2 : ∀ c ∈ l2, (!isNoiseW c) = true :=
      collapse_chars isBangC 3 ['!', '!'] (fun c => !isNoiseW c) (by decide) l1 hn1
    have hn3 : ∀ c ∈ l3, (!isNoiseW c) = true :=
      collapse_chars isQmC 3 ['?', '?'] (fun c => !isNoiseW c) (by decide) l2 hn2
    have hn4 : ∀ c ∈ l4, (!isNoiseW c) = true := by
      rw [hl4]
      intro c hc
      rcases joinWith_chars '\n' kept c hc with heq | ⟨x, hx, hcx⟩
      · rw [heq]
        decide
      · exact hn3 c ((splitOnChar_seg '\n' l3 x (hkeptPieces x hx)).subset hcx)
    have hn5 : ∀ c ∈ l5, (!isNoiseW c) = true := by
      rw [hl5]
      exact collapse_chars isSpTab 3 [' ', ' '] (fun c => !isNoiseW c) (by decide) l4 hn4
    have hd1 : NoRun isDotC 4 l1 :=
      collapse_noRun isDotC 4 ['.', '.', '.'] (by omega) (by decide) l0
    have hd2 : NoRun isDotC 4 l2 := collapse_preserve_noRun isBangC 3 ['!', '!'] isDotC
      (by omega) dot_not_bang (by decide) (by decide) l1 hd1
    have hd3 : NoRun isDotC 4 l3 := collapse_preserve_noRun isQmC 3 ['?', '?'] isDotC
      (by omega) dot_not_qm (by decide) (by decide) l2 hd2
    have hb2 : NoRun isBangC 3 l2 := collapse_noRun isBangC 3 ['!', '!'] (by omega) (by decide) l1
    have hb3 : NoRun isBangC 3 l3 := collapse_preserve_noRun isQmC 3 ['?', '?'] isBangC
      (by omega) bang_not_qm (by decide) (by decide) l2 hb2
    have hq3 : NoRun isQmC 3 l3 := collapse_noRun isQmC 3 ['?', '?'] (by omega) (by decide) l2
    have hd4 : NoRun isDotC 4 l4 := by
      rw [hl4]
      exact noRun_joinWith (by omega) (by decide) kept
        (fun x hx => noRun_of_seg (splitOnChar_seg '\n' l3 x (hkeptPieces x hx)) hd3)
    have hb4 : NoRun isBangC 3 l4 := by
      rw [hl4]
      exact noRun_joinWith (by omega) (by decide) kept
        (fun x hx => noRun_of_seg (splitOnChar_seg '\n' l3 x (hkeptPieces x hx)) hb3)
    have hq4 : NoRun isQmC 3 l4 := by
      rw [hl4]
      exact noRun_joinWith (by omega) (by decide) kept
        (fun x hx => noRun_of_seg (splitOnChar_seg '\n' l3 x (hkeptPieces x hx)) hq3)
    have hd5 : NoRun isDotC 4 l5 := by
      rw [hl5]
      exact collapse_preserve_noRun isSpTab 3 [' ', ' '] isDotC (by omega) dot_not_sptab
        (by decide) (by decide) l4 hd4
    have hb5 : NoRun isBangC 3 l5 := by
      rw [hl5]
      exact collapse_preserve_noRun isSpTab 3 [' ', ' '] isBangC (by omega) bang_not_sptab
        (by decide) (by decide) l4 hb4
    have hq5 : NoRun isQmC 3 l5 := by
      rw [hl5]
      exact collapse_preserve_noRun isSpTab 3 [' ', ' '] isQmC (by omega) qm_not_sptab
        (by decide) (by decide) l4 hq4
    have hsp5 : NoRun isSpTab 3 l5 := by
      rw [hl5]
      exact collapse_noRun isSpTab 3 [' ', ' '] (by omega) (by decide) l4
    have hnl4 : NoRun (fun ch => ch == '\n') 2 l4 := by
      rw [hl4]
      exact noRun_two_joinWith '\n' kept (fun x hx => ⟨hkeptNe x hx, hkeptFree x hx⟩)
    have hnl5 : NoRun (fun ch => ch == '\n') 2 l5 := by
      rw [hl5]
      exact collapse_preserve_noRun isSpTab 3 [' ', ' '] (fun ch => ch == '\n') (by omega)
        nlc_not_sptab (by decide) (by decide) l4 hnl4
    have hnl5' : NoRun isNl 3 l5 := noRun_mono (by omega) hnl5
    have hl6eq : l6 = l5 := by
      rw [hl6]
      exact collapse_eq_self isNl 3 ['\n', '\n'] l5 hnl5'
    have hl5j : l5 = joinWith '\n' (kept.map (collapseRuns isSpTab 3 [' ', ' '])) := by
      have hcj : collapseRuns isSpTab 3 [' ', ' '] (joinWith '\n' kept)
          = joinWith '\n' (kept.map (collapseRuns isSpTab 3 [' ', ' '])) :=
        collapse_joinWith isSpTab 3 [' ', ' '] (by decide) kept
      rw [hl5, hl4, hcj]
    have hys5KeepAll : ∀ x ∈ kept.map (collapseRuns isSpTab 3 [' ', ' ']), keepLine x = true := by
      intro x hx
      obtain ⟨y, hy, heq⟩ := List.mem_map.mp hx
      rw [← heq]
      exact keepLine_collapse_sptab (hkeepAll y hy)
    have hys5Nonws : ∀ x ∈ kept.map (collapseRuns isSpTab 3 [' ', ' ']),
        ∃ c ∈ x, isPyWs c = false := by
      intro x hx
      obtain ⟨y, hy, heq⟩ := List.mem_map.mp hx
      rw [← heq]
      exact nonws_collapse isSpTab 3 [' ', ' '] sptab_ws (by decide) (hkeptNonws y hy)
    have hys5Free : ∀ x ∈ kept.map (collapseRuns isSpTab 3 [' ', ' ']), '\n' ∉ x := by
      intro x hx hmem
      obtain ⟨y, hy, heq⟩ := List.mem_map.mp hx
      rw [← heq] at hmem
      have hq := collapse_chars isSpTab 3 [' ', ' '] (fun c => !(c == '\n')) (by decide) y
        (fun c hc => by
          have hne : c ≠ '\n' := fun he => (hkeptFree y hy) (he ▸ hc)
          simpa using hne)
      simpa using hq '\n' hmem
    have hys5Ne : kept.map (collapseRuns isSpTab 3 [' ', ' ']) ≠ [] := by
      intro h
      have hlen := congrArg List.length h
      rw [List.length_map] at hlen
      exact hk (List.length_eq_zero.mp hlen)
    have hm : pyStripL l6 = joinWith '\n' (edgeStrip (kept.map (collapseRuns isSpTab 3 [' ', ' ']))) := by
      rw [hl6eq]
      conv_lhs => rw [hl5j]
      exact strip_joinWith '\n' _ hys5Nonws
    have hesKeep : ∀ x ∈ edgeStrip (kept.map (collapseRuns isSpTab 3 [' ', ' '])),
        keepLine x = true := by
      intro x hx
      obtain ⟨y, hy, hcase⟩ := mem_edgeStrip hx
      rcases hcase with heq | heq | heq | heq
      · rw [heq]
        exact hys5KeepAll y hy
      · rw [heq, keepLine_lstrip]
        exact hys5KeepAll y hy
      · rw [heq, keepLine_rstrip]
        exact hys5KeepAll y hy
      · rw [heq, keepLine_strip]
        exact hys5KeepAll y hy
    have hesFree : ∀ x ∈ edgeStrip (kept.map (collapseRuns isSpTab 3 [' ', ' '])), '\n' ∉ x := by
      intro x hx hmem
      obtain ⟨y, hy, hcase⟩ := mem_edgeStrip hx
      have hsub : '\n' ∈ y := by
        rcases hcase with heq | heq | heq | heq
        · rw [heq] at hmem
          exact hmem
        · rw [heq] at hmem
          exact (pyLStripL_suffix y).subset hmem
        · rw [heq] at hmem
          exact (pyRStripL_pref y).subset hmem
        · rw [heq] at hmem
          exact (pyStripL_seg y).subset hmem
      exact hys5Free y hy hsub
    have hsplitm : splitOnChar '\n' (pyStripL l6)
        = edgeStrip (kept.map (collapseRuns isSpTab 3 [' ', ' '])) := by
      rw [hm]
      exact splitOnChar_joinWith '\n' _ (edgeStrip_ne_nil hys5Ne) hesFree
    have hinf : pyStripL l6 <:+: l5 := by
      rw [hl6eq]
      exact pyStripL_seg l5
    refine ⟨?_, ?_, ?_, ?_, ?_, ?_, ?_⟩
    · intro c hc
      simpa using hn5 c (hinf.subset hc)
    · exact noRun_of_seg hinf hd5
    · exact noRun_of_seg hinf hb5
    · exact noRun_of_seg hinf hq5
    · intro x hx
      rw [hsplitm] at hx
      exact hesKeep x hx
    · exact noRun_of_seg hinf hsp5
    · rw [hl6eq]
      exact pyStripL_idem l5
/-! ### The cleaners fix the invariant strings, and idempotence -/

theorem cleanLt_of_invT {m : List Char} (h : InvT m) : cleanLt m = m := by
  obtain ⟨hn, hd, hb, hq, hs, hnl, hstr⟩ := h
  unfold cleanLt
  have h0 : m.filter (fun c => !isNoiseT c) = m :=
    List.filter_eq_self.mpr (fun c hc => by rw [hn c hc]; rfl)
  rw [h0, collapse_eq_self isDotC 4 _ m hd, collapse_eq_self isBangC 3 _ m hb,
    collapse_eq_self isQmC 3 _ m hq, collapse_eq_self isSpTab 3 _ m hs,
    collapse_eq_self isNl 3 _ m hnl, hstr]

theorem cleanLw_of_invW {m : List Char} (h : InvW m) : cleanLw m = m := by
  obtain ⟨hn, hd, hb, hq, hkeep, hs, hstr⟩ := h
  have hnl : NoRun isNl 3 m := by
    have hpieces : ∀ x ∈ splitOnChar '\n' m, x ≠ [] ∧ '\n' ∉ x := fun x hx =>
      ⟨keepLine_ne_nil (hkeep x hx), splitOnChar_sepfree '\n' m x hx⟩
    have h2 := noRun_two_joinWith '\n' (splitOnChar '\n' m) hpieces
    rw [joinWith_splitOnChar '\n' m] at h2
    exact noRun_mono (by omega) h2
  unfold cleanLw
  have h0 : m.filter (fun c => !isNoiseW c) = m :=
    List.filter_eq_self.mpr (fun c hc => by rw [hn c hc]; rfl)
  have hfl : filterLinesW m = m := by
    unfold filterLinesW
    rw [List.filter_eq_self.mpr hkeep, joinWith_splitOnChar]
  rw [h0, collapse_eq_self isDotC 4 _ m hd, collapse_eq_self isBangC 3 _ m hb,
    collapse_eq_self isQmC 3 _ m hq, hfl, collapse_eq_self isSpTab 3 _ m hs,
    collapse_eq_self isNl 3 _ m hnl, hstr]

theorem cleanLw_nil : cleanLw [] = [] := by
  unfold cleanLw filterLinesW
  rw [List.filter_nil, collapse_nil, collapse_nil, collapse_nil]
  have h1 : (splitOnChar '\n' ([] : List Char)).filter keepLine = [] := by decide
  rw [h1]
  have h2 : joinWith '\n' ([] : List (List Char)) = [] := rfl
  rw [h2, collapse_nil, collapse_nil]
  rfl

theorem cleanLw_idem (l : List Char) : cleanLw (cleanLw l) = cleanLw l := by
  rcases invW_cleanLw l with h | h
  · rw [h, cleanLw_nil]
  · exact cleanLw_of_invW h

theorem cleanLt_idem (l : List Char) : cleanLt (cleanLt l) = cleanLt l :=
  cleanLt_of_invT (invT_cleanLt l)

theorem cleanOcrTextWindows_idem (s : String) :
    cleanOcrTextWindows (cleanOcrTextWindows s) = cleanOcrTextWindows s := by
  unfold cleanOcrTextWindows
  by_cases h : s = ""
  · subst h
    simp
  · have hb : (s == "") = false := beq_eq_false_iff_ne.mpr h
    rw [hb]
    simp only [Bool.false_eq_true, if_false]
    by_cases h2 : cleanLw s.data = []
    · rw [h2]
      have he : String.mk ([] : List Char) = "" := rfl
      rw [he]
      simp
    · have hb2 : (String.mk (cleanLw s.data) == "") = false := by
        rw [beq_eq_false_iff_ne]
        intro he
        apply h2
        have hdata := congrArg String.data he
        simpa using hdata
      rw [hb2]
      simp only [Bool.false_eq_true, if_false]
      rw [cleanLw_idem]

theorem cleanOcrTextTesseract_idem (s : String) :
    cleanOcrTextTesseract (cleanOcrTextTesseract s) = cleanOcrTextTesseract s := by
  unfold cleanOcrTextTesseract
  by_cases h : s = ""
  · subst h
    simp
  · have hb : (s == "") = false := beq_eq_false_iff_ne.mpr h
    rw [hb]
    simp only [Bool.false_eq_true, if_false]
    by_cases h2 : cleanLt s.data = []
    · rw [h2]
      have he : String.mk ([] : List Char) = "" := rfl
      rw [he]
      simp
    · have hb2 : (String.mk (cleanLt s.data) == "") = false := by
        rw [beq_eq_false_iff_ne]
        intro he
        apply h2
        have hdata := congrArg String.data he
        simpa using hdata
      rw [hb2]
      simp only [Bool.false_eq_true, if_false]
      rw [cleanLt_idem]

/-- **C6**: OCR text cleaning is idempotent: for every input string, applying
the cleaning function to its own output yields the same string, for both the
Tesseract-path cleaner (`OCREngine._clean_ocr_text`) and the Windows-OCR-path
cleaner (`WindowsOCR._clean_ocr_text`). -/
theorem c6_cleaning_idempotent (s : String) :
    cleanOcrTextTesseract (cleanOcrTextTesseract s) = cleanOcrTextTesseract s ∧
    cleanOcrTextWindows (cleanOcrTextWindows s) = cleanOcrTextWindows s :=
  ⟨cleanOcrTextTesseract_idem s, cleanOcrTextWindows_idem s⟩
end ScreenTranslation
